import Mathlib

/-!
Documentation generator (`tools/doc_gen/index.js`): segmenter and preprocessing.

A shallow embedding of the text segmentation (`split`, `splitStrs`, `splitAll`),
the diagram rewriting (`preprocess`, `preprocessGraphviz`, `preprocessUML`) and
the underscore escaping (`encodeStr`) of `ApiGenerator`.

A JavaScript string is modelled as the list of its code units (`List Char`),
so `length`, `indexOf` and `substr` count list positions. JavaScript numbers
that hold positions are `Int` (the source relies on `-1` as "not found"); the
image counter is a `Nat`. The `while (true)` loop of `split` is a function
with explicit fuel that returns `none` when the fuel runs out.
-/

namespace DocGen

/-- A JavaScript string: the list of its code units. -/
abbrev Str := List Char

/-- One element of the arrays handled by `split`: an object with the two
fields `type` and `data`. -/
structure Segment where
  type : String
  data : Str
deriving DecidableEq

/-- Offset of the first occurrence of `pat` in a string, scanning left to
right (the search step of `String.prototype.indexOf`); the empty pattern
occurs at offset 0 of every string, also of the empty one. -/
def findFrom (pat : Str) : Str → Option Nat
  | [] => if pat.isPrefixOf [] then some 0 else none
  | c :: cs => if pat.isPrefixOf (c :: cs) then some 0 else (findFrom pat cs).map (· + 1)

/-- The JavaScript `str.indexOf(searchString, position)`: the position is
clamped to `[0, length]`, the result is the first index at or after it where
`searchString` occurs, or `-1`. -/
def indexOf (str searchString : Str) (position : Int) : Int :=
  let start := min position.toNat str.length
  match findFrom searchString (str.drop start) with
  | some i => ((start + i : Nat) : Int)
  | none => -1

/-- The JavaScript `str.substr(start, length)`: a negative `start` counts from
the end of the string, `length` is clamped to `[0, size]`. -/
def substr (str : Str) (start length : Int) : Str :=
  let size : Int := str.length
  let intStart := if start < 0 then max (size + start) 0 else min start size
  let intLength := min (max length 0) size
  let intEnd := min (intStart + intLength) size
  (str.drop intStart.toNat).take (intEnd - intStart).toNat

/-- The JavaScript `str.substr(start)` with the length omitted: everything
from `start` (counted from the end when negative) to the end of the string. -/
def substrFrom (str : Str) (start : Int) : Str :=
  let size : Int := str.length
  let intStart := if start < 0 then max (size + start) 0 else min start size
  str.drop intStart.toNat

/-- The `while (true)` loop of `split` (lines 118-144), one iteration per unit
of fuel. The loop state is the three locals `start`, `end` and `result`; the
value returned at a `break` is the pair of `end` and `result` that the code
after the loop reads. `none` means the fuel ran out before a `break`. -/
def splitLoop (str : Str) (type : String) (stag etag : Str) :
    Nat → Int → Int → List Segment → Option (Int × List Segment)
  | 0, _, _, _ => none
  | fuel + 1, start, end_, result =>
    let last_start := start
    let start := indexOf str stag last_start
    if start < 0 then some (end_, result)
    else
      let end_ := indexOf str etag (start + stag.length)
      if end_ < 0 then some (end_, result)
      else
        let end_ := end_ + etag.length
        let result :=
          if start > last_start then
            result ++ [⟨"text", substr str last_start (start - last_start)⟩]
          else result
        let result := result ++ [⟨type, substr str start (end_ - start)⟩]
        splitLoop str type stag etag fuel end_ end_ result

/-- The method `split(str, type, stag, etag)` (lines 113-154): the loop, then
the trailing text pushed when `(end + 1) < str.length`. The loop is given
`str.length + 1` iterations, which is every iteration it can make when the two
tags are not both empty (`splitLoop_some`); `none` is a loop that never
leaves. -/
def split (str : Str) (type : String) (stag etag : Str) : Option (List Segment) :=
  match splitLoop str type stag etag (str.length + 1) 0 0 [] with
  | none => none
  | some (end_, result) =>
    if end_ + 1 < (str.length : Int) then
      some (result ++ [⟨"text", substrFrom str end_⟩])
    else some result

/-- The method `splitStrs(arr, type, stag, etag)` (lines 156-168): every
`text` element is replaced by its split, every other element is kept. -/
def splitStrs (arr : List Segment) (type : String) (stag etag : Str) :
    Option (List Segment) :=
  arr.foldlM
    (fun result iter =>
      if iter.type = "text" then
        (split iter.data type stag etag).map (fun r => result ++ r)
      else some (result ++ [iter]))
    []

/-- The method `splitAll(str)` (lines 170-179): the one rule applied is the
code fence. -/
def splitAll (str : Str) : Option (List Segment) :=
  splitStrs [⟨"text", str⟩] "code" "```".toList "```".toList

/-- String replacement with a global literal pattern, `str.replace(/pat/g, rep)`
for a non-empty `pat` without regular-expression operators: scanning left to
right, every match is replaced and the scan resumes after the match. The
counter is the number of code units of the current match still to be
skipped. -/
def replaceAllAux (pat rep : Str) : Nat → Str → Str
  | _, [] => []
  | skip + 1, _ :: cs => replaceAllAux pat rep skip cs
  | 0, c :: cs =>
    if pat.isPrefixOf (c :: cs) then rep ++ replaceAllAux pat rep (pat.length - 1) cs
    else c :: replaceAllAux pat rep 0 cs

/-- Global replacement of a literal pattern, from the start of the string. -/
def replaceAll (pat rep : Str) (str : Str) : Str := replaceAllAux pat rep 0 str

/-- String replacement with a string pattern, `str.replace(pat, rep)`: only
the first occurrence is replaced (`rep` has no dollar sign in the source). -/
def replaceFirst (pat rep : Str) : Str → Str
  | [] => if pat.isPrefixOf [] then rep else []
  | c :: cs =>
    if pat.isPrefixOf (c :: cs) then rep ++ (c :: cs).drop pat.length
    else c :: replaceFirst pat rep cs

/-- The function `encodeStr(str)` (lines 91-93): `str.replace(/_/g, "\\_")`. -/
def encodeStr (str : Str) : Str := replaceAll "_".toList "\\_".toList str

/-- The constant `graphviz_default_style` (lines 3-14). -/
def graphviz_default_style : Str :=
  ("\n    rankdir  = BT\n    fontname = \"Courier New\"\n    fontsize = 12\n\n" ++
   "    node [\n        fontname = \"Courier New\"\n        fontsize = 12\n" ++
   "        shape    = \"record\"\n        width = 0.4\n    ]\n").toList

/-- The state a generator object carries through `preprocess`: the field
`imageIndex`, and the file system as the log of `fs.writeFileSync` calls in
the order they were made (file name, content). -/
structure GenState where
  imageIndex : Nat
  files : List (Str × Str)
deriving DecidableEq

/-- The template literal of lines 182 and 192: the entity name, an underscore
and the counter in decimal. -/
def imageName (clsName : Str) (imageIndex : Nat) : Str :=
  clsName ++ "_".toList ++ Nat.toDigits 10 imageIndex

/-- The markdown image reference returned at lines 188 and 197. -/
def imageRef (name : Str) : Str :=
  "![image](images/".toList ++ name ++ ".png)\n".toList

/-- The method `preprocessGraphviz(str, clsName)` (lines 181-189). -/
def preprocessGraphviz (str clsName : Str) (st : GenState) : Str × GenState :=
  let name := imageName clsName st.imageIndex
  let filename := "dots/".toList ++ name
  let dotStr := replaceAll "[default_style]".toList graphviz_default_style str
  (imageRef name, ⟨st.imageIndex + 1, st.files ++ [(filename, dotStr)]⟩)

/-- The method `preprocessUML(str, clsName)` (lines 191-198). -/
def preprocessUML (str clsName : Str) (st : GenState) : Str × GenState :=
  let name := imageName clsName st.imageIndex
  let filename := "umls/".toList ++ name ++ ".uml".toList
  (imageRef name, ⟨st.imageIndex + 1, st.files ++ [(filename, str)]⟩)

/-- The body of the `forEach` callback of `preprocess` (lines 203-216) on one
element: the element after the callback and the state after it. -/
def preprocessIter (clsName : Str) (iter : Segment) (st : GenState) : Segment × GenState :=
  if iter.type = "code" then
    let data := iter.data
    if indexOf data "```graphviz".toList 0 ≥ 0 then
      let data := replaceFirst "```graphviz".toList "digraph G \x7b".toList data
      let data := replaceFirst "```".toList "\x7d".toList data
      let r := preprocessGraphviz data clsName st
      (⟨iter.type, r.1⟩, r.2)
    else if indexOf data "```uml".toList 0 ≥ 0 then
      let data := replaceFirst "```uml".toList "@startuml".toList data
      let data := replaceFirst "```".toList "@enduml".toList data
      let r := preprocessUML data clsName st
      (⟨iter.type, r.1⟩, r.2)
    else (iter, st)
  else (iter, st)

/-- The `forEach` of `preprocess` over the whole array, in array order. -/
def preprocessIters (clsName : Str) : List Segment → GenState → List Segment × GenState
  | [], st => ([], st)
  | iter :: rest, st =>
    let r := preprocessIter clsName iter st
    let rs := preprocessIters clsName rest r.2
    (r.1 :: rs.1, rs.2)

/-- The method `preprocess(str, clsName)` (lines 200-223): the returned string
and the state of the generator after the call. -/
def preprocess (str clsName : Str) (st : GenState) : Option (Str × GenState) :=
  match splitAll str with
  | none => none
  | some strs =>
    let r := preprocessIters clsName strs st
    some (r.1.foldl (fun result iter => result ++ iter.data) [], r.2)

/-! ## Notions used to state the properties of `preprocess` -/

/-- Whether an element is a code segment that is a diagram: its type is
`code` and its data contains the graphviz marker or the uml marker. -/
def isDiagram (seg : Segment) : Bool :=
  decide (seg.type = "code") &&
    (decide ("```graphviz".toList <:+: seg.data) || decide ("```uml".toList <:+: seg.data))

/-- Name of the side file of the diagram `seg` written with index `i` for the
entity `n`: under `dots/` for a graphviz block, under `umls/` with the
extension `.uml` otherwise. -/
def sideFileName (n : Str) (i : Nat) (seg : Segment) : Str :=
  if "```graphviz".toList <:+: seg.data then
    "dots/".toList ++ n ++ "_".toList ++ Nat.toDigits 10 i
  else "umls/".toList ++ n ++ "_".toList ++ Nat.toDigits 10 i ++ ".uml".toList

/-- The image reference with index `i` for the entity `n`. -/
def imageRefFor (n : Str) (i : Nat) : Str :=
  "![image](images/".toList ++ n ++ "_".toList ++ Nat.toDigits 10 i ++ ".png)\n".toList

/-- The array `result` after one iteration of the loop of `split` that finds
a match (lines 131-141): the cursor is `c`, the start tag is found `i` code
units after it and the end tag `j` code units after the end of the start tag.
The text before the match is pushed when the match does not start at the
cursor, then the matched span with both tags. -/
def pushMatch (str : Str) (type : String) (stag etag : Str) (c i j : Nat)
    (result : List Segment) : List Segment :=
  (if 0 < i then result ++ [⟨"text", (str.drop c).take i⟩] else result)
    ++ [⟨type, (str.drop (c + i)).take (stag.length + j + etag.length)⟩]

/-- The segments lie in the string `s` one after the other without overlap:
each segment's data is the content of a span of `s`, the first span starts at
or after position `lo`, every span starts at or after the end of the one
before it, and the last one ends at or before position `hi`. -/
def spansIn (s : Str) : Nat → Nat → List Segment → Prop
  | lo, hi, [] => lo ≤ hi
  | lo, hi, seg :: rest =>
    ∃ a, lo ≤ a ∧ a + seg.data.length ≤ s.length ∧
      seg.data = (s.drop a).take seg.data.length ∧
      spansIn s (a + seg.data.length) hi rest

/-! ## The renderer: entities, members and the markdown templates -/

/-- One element of `params` of a method: the fields `name`, `type`, `desc`. -/
structure Param where
  name : Str
  type : Str
  desc : Str
deriving DecidableEq

/-- The field `return` of a method: the fields `type` and `desc`. -/
structure Return where
  type : Str
  desc : Str
deriving DecidableEq

/-- The field `annotation` of a member, as far as the renderer reads it: for
each flag whether its value is truthy (an absent flag is not). The renderer
only tests the flags, it never prints their values. -/
structure Annotation where
  scriptable : Bool
  persitent : Bool
  design : Bool
  readable : Bool
  writable : Bool
  get_prop : Bool
  set_prop : Bool
  private_ : Bool
deriving DecidableEq

/-- A member of an entity (method, property, constant or event): the fields
the renderer reads. `ret` is the field `return`; `annotation` may be absent. -/
structure Member where
  name : Str
  desc : Str
  type : Str
  ret : Return
  params : List Param
  annotation : Option Annotation
deriving DecidableEq

/-- An entity of the input (`cls`): the member arrays and `parent` may be
absent. -/
structure Entity where
  name : Str
  type : Str
  desc : Str
  parent : Option Str
  methods : Option (List Member)
  properties : Option (List Member)
  consts : Option (List Member)
  events : Option (List Member)
deriving DecidableEq

/-- The function `genA(clsName, iter)` (lines 23-25), on the name of `iter`. -/
def genA (clsName name : Str) : Str :=
  "<a href=\"#".toList ++ clsName ++ "_".toList ++ name ++ "\">".toList
    ++ encodeStr name ++ "</a>".toList

/-- The function `genAnchor(clsName, iter)` (lines 27-29), on the name of
`iter`. -/
def genAnchor (clsName name : Str) : Str :=
  "<p id=\"".toList ++ clsName ++ "_".toList ++ name ++ "\">".toList

/-- The function `toBool(v)` (lines 31-33), on the truthiness of `v`. -/
def toBool (v : Bool) : Str := if v then "是".toList else "否".toList

/-- Truthiness of `isScriptable(obj)` (lines 35-37). -/
def isScriptable (obj : Member) : Bool :=
  match obj.annotation with
  | none => false
  | some a => a.scriptable

/-- Truthiness of `isPersitent(obj)` (lines 47-49). -/
def isPersitent (obj : Member) : Bool :=
  match obj.annotation with
  | none => false
  | some a => a.persitent

/-- Truthiness of `isDesign(obj)` (lines 51-53). -/
def isDesign (obj : Member) : Bool :=
  match obj.annotation with
  | none => false
  | some a => a.design

/-- Truthiness of `isReadable(obj)` (lines 55-57). -/
def isReadable (obj : Member) : Bool :=
  match obj.annotation with
  | none => false
  | some a => a.readable

/-- Truthiness of `isWritable(obj)` (lines 59-61). -/
def isWritable (obj : Member) : Bool :=
  match obj.annotation with
  | none => false
  | some a => a.writable

/-- Truthiness of `isGetProp(obj)` (lines 63-65). -/
def isGetProp (obj : Member) : Bool :=
  match obj.annotation with
  | none => false
  | some a => a.get_prop

/-- Truthiness of `isSetProp(obj)` (lines 67-69). -/
def isSetProp (obj : Member) : Bool :=
  match obj.annotation with
  | none => false
  | some a => a.set_prop

/-- Truthiness of `isPrivate(obj)` (lines 71-73). -/
def isPrivate (obj : Member) : Bool :=
  match obj.annotation with
  | none => false
  | some a => a.private_

/-- The expression `desc.split('\n')[0]`: the text before the first line
feed. -/
def firstLine (desc : Str) : Str := desc.takeWhile (fun c => c != '\n')

/-- The code units that `String.prototype.trim` removes: the white space and
line terminator code points of ECMAScript. -/
def isWhiteSpace (c : Char) : Bool :=
  decide (c.toNat ∈ [0x09, 0x0A, 0x0B, 0x0C, 0x0D, 0x20, 0xA0, 0x1680, 0x2028, 0x2029, 0x202F,
    0x205F, 0x3000, 0xFEFF]) || (decide (0x2000 ≤ c.toNat) && decide (c.toNat ≤ 0x200A))

/-- The JavaScript `str.trim()`. -/
def trim (str : Str) : Str :=
  ((str.dropWhile isWhiteSpace).reverse.dropWhile isWhiteSpace).reverse

/-- The row pushed by the callback of lines 104-106 for one parameter. -/
def paramRow (iter : Param) : Str :=
  "| ".toList ++ encodeStr iter.name ++ " | ".toList ++ encodeStr iter.type ++ " | ".toList
    ++ encodeStr iter.desc ++ " |\n".toList

/-- The method `genOneFunc(cls, p)` (lines 97-111). -/
def genOneFunc (cls : Entity) (p : Member) : Str :=
  let result := "#### ".toList ++ encodeStr p.name ++ " 函数\n".toList
  let result := result ++ "-----------------------\n\n".toList
  let result := result ++ "| 参数 | 类型 | 说明 |\n".toList
  let result := result ++ "| -------- | ----- | --------- |\n".toList
  let result := result ++ ("| 返回值 | ".toList ++ encodeStr p.ret.type ++ " | ".toList
    ++ encodeStr p.ret.desc ++ " |\n".toList)
  let result := p.params.foldl (fun result iter => result ++ paramRow iter) result
  result ++ (genAnchor cls.name p.name ++ p.desc ++ "\n\n".toList)

/-- The method `genOneProperty(cls, p)` (lines 373-391). -/
def genOneProperty (cls : Entity) (p : Member) : Str :=
  let result := "#### ".toList ++ encodeStr p.name ++ " 属性\n".toList
  let result := result ++ "-----------------------\n".toList
  let result := result ++ (genAnchor cls.name p.name ++ p.desc ++ "\n\n".toList)
  let result := result ++ ("* 类型：".toList ++ encodeStr p.type ++ "\n\n".toList)
  let result := result ++ "| 特性 | 是否支持 |\n".toList
  let result := result ++ "| -------- | ----- |\n".toList
  let result := result ++ ("| 可直接读取 | ".toList ++ toBool (isReadable p) ++ " |\n".toList)
  let result := result ++ ("| 可直接修改 | ".toList ++ toBool (isWritable p) ++ " |\n".toList)
  let result := result ++ ("| 可持久化   | ".toList ++ toBool (isPersitent p) ++ " |\n".toList)
  let result := result ++ ("| 可脚本化   | ".toList ++ toBool (isScriptable p) ++ " |\n".toList)
  let result := result ++ ("| 可在IDE中设置 | ".toList ++ toBool (isDesign p) ++ " |\n".toList)
  let result := result ++ ("| 可在XML中设置 | ".toList ++ toBool (isGetProp p) ++ " |\n".toList)
  let result := result ++ ("| 支通过widget_get_prop读取 | ".toList ++ toBool (isGetProp p)
    ++ " |\n".toList)
  result ++ ("| 支通过widget_set_prop修改 | ".toList ++ toBool (isSetProp p) ++ " |\n".toList)

/-- The call `arr.sort((a, b) => a.name.localeCompare(b.name))` of lines 243
and 281. `localeCompare` is the comparison of the JavaScript runtime, taken
as a parameter. `Array.prototype.sort` is a stable sort; it is modelled by
insertion sort, which yields the one stably sorted arrangement whenever the
comparison is a consistent order. -/
def sortByName (localeCompare : Str → Str → Int) (arr : List Member) : List Member :=
  arr.insertionSort (fun a b => localeCompare a.name b.name ≤ 0)

/-- The text before the rows of `genFunctionsIndex` (lines 236-241). -/
def functionsIndexHead (clsName : Str) : Str :=
  "### 函数\n".toList ++ (genAnchor clsName "methods".toList ++ "\n\n".toList)
    ++ "| 函数名称 | 说明 | \n".toList ++ "| -------- | ------------ | \n".toList

/-- The row pushed at line 249 for one method. -/
def functionsIndexRow (clsName : Str) (iter : Member) : Str :=
  "| ".toList ++ genA clsName iter.name ++ " | ".toList ++ firstLine iter.desc
    ++ " |\n".toList

/-- The method `genFunctionsIndex(cls)` (lines 232-255): the text returned
and the entity after the call (its `methods` are sorted in place). -/
def genFunctionsIndex (localeCompare : Str → Str → Int) (cls : Entity) : Str × Entity :=
  match cls.methods with
  | none => ([], cls)
  | some methods =>
    let result := functionsIndexHead cls.name
    let methods := sortByName localeCompare methods
    let result := methods.foldl
      (fun result iter =>
        if !isPrivate iter then result ++ functionsIndexRow cls.name iter else result)
      result
    (result, { cls with methods := some methods })

/-- The method `genFunctionsDetail(cls)` (lines 257-269). -/
def genFunctionsDetail (cls : Entity) : Str :=
  match cls.methods with
  | none => []
  | some methods =>
    methods.foldl
      (fun result iter => if !isPrivate iter then result ++ genOneFunc cls iter else result)
      []

/-- The text before the rows of `genPropertiesIndex` (lines 274-279). -/
def propertiesIndexHead (clsName : Str) : Str :=
  "### 属性\n".toList ++ (genAnchor clsName "properties".toList ++ "\n\n".toList)
    ++ "| 名属性称 | 类型 | 说明 | \n".toList ++ "| -------- | ----- | ------------ | \n".toList

/-- The row pushed at line 287 for one property. -/
def propertiesIndexRow (clsName : Str) (p : Member) : Str :=
  "| ".toList ++ genA clsName p.name ++ " | ".toList ++ p.type ++ " | ".toList
    ++ firstLine p.desc ++ " |\n".toList

/-- The method `genPropertiesIndex(cls)` (lines 271-293): the text returned
and the entity after the call (its `properties` are sorted in place). -/
def genPropertiesIndex (localeCompare : Str → Str → Int) (cls : Entity) : Str × Entity :=
  match cls.properties with
  | none => ([], cls)
  | some properties =>
    let result := propertiesIndexHead cls.name
    let properties := sortByName localeCompare properties
    let result := properties.foldl
      (fun result p =>
        if !isPrivate p then result ++ propertiesIndexRow cls.name p else result)
      result
    (result, { cls with properties := some properties })

/-- The method `genPropertiesDetail(cls)` (lines 295-306). -/
def genPropertiesDetail (cls : Entity) : Str :=
  match cls.properties with
  | none => []
  | some properties =>
    properties.foldl
      (fun result p => if !isPrivate p then result ++ genOneProperty cls p else result)
      []

/-- The method `genConsts(cls)` (lines 308-325). -/
def genConsts (cls : Entity) : Str :=
  match cls.consts with
  | none => []
  | some consts =>
    let result := "### 常量\n".toList
    let result := result ++ (genAnchor cls.name "consts".toList ++ "\n\n".toList)
    let result := result ++ "| 名称 | 说明 | \n".toList
    let result := result ++ "| -------- | ------- | \n".toList
    consts.foldl
      (fun result iter =>
        result ++ ("| ".toList ++ encodeStr iter.name ++ " | ".toList
          ++ encodeStr (trim iter.desc) ++ " |\n".toList))
      result

/-- The method `genEvents(cls)` (lines 327-344). -/
def genEvents (cls : Entity) : Str :=
  match cls.events with
  | none => []
  | some events =>
    let result := "### 事件\n".toList
    let result := result ++ (genAnchor cls.name "events".toList ++ "\n\n".toList)
    let result := result ++ "| 事件名称 | 类型  | 说明 | \n".toList
    let result := result ++ "| -------- | ----- | ------- | \n".toList
    events.foldl
      (fun result iter =>
        result ++ ("| ".toList ++ encodeStr iter.name ++ " | ".toList ++ encodeStr iter.type
          ++ " | ".toList ++ encodeStr (trim iter.desc) ++ " |\n".toList))
      result

/-- The method `writeResult(clsName, result)` (lines 225-230): the state after
the document is written. -/
def writeResult (clsName result : Str) (st : GenState) : Option GenState :=
  let filename := "docs/".toList ++ clsName ++ ".md".toList
  match preprocess result clsName st with
  | none => none
  | some (str, st) => some ⟨st.imageIndex, st.files ++ [(filename, str)]⟩

/-- The text `genOneClass` builds before the index tables (lines 347-358):
the title, the overview and, when `parent` is a non-empty string, the
inheritance graph. -/
def classOverview (cls : Entity) : Str :=
  let result := "## ".toList ++ encodeStr cls.name ++ "\n".toList
  let result := result ++ "### 概述\n".toList
  let result := result ++ cls.desc
  match cls.parent with
  | none => result
  | some parent =>
    if parent ≠ [] then
      let result := result ++ "```graphviz\n".toList
      let result := result ++ "[default_style]\n".toList
      let result := result ++ (cls.name ++ " -> ".toList ++ parent
        ++ "[arrowhead = \"empty\"]".toList)
      result ++ "```\n".toList
    else result

/-- The method `genOneClass(cls)` (lines 346-371): the entity after the call
(the two index methods sort its arrays) and the state after the document is
written. -/
def genOneClass (localeCompare : Str → Str → Int) (cls : Entity) (st : GenState) :
    Option (Entity × GenState) :=
  let result := classOverview cls
  let r := genFunctionsIndex localeCompare cls
  let result := result ++ r.1
  let cls := r.2
  let r := genPropertiesIndex localeCompare cls
  let result := result ++ r.1
  let cls := r.2
  let result := result ++ genConsts cls
  let result := result ++ genEvents cls
  let result := result ++ genFunctionsDetail cls
  let result := result ++ genPropertiesDetail cls
  (writeResult cls.name result st).map (fun st => (cls, st))

/-- The method `genOneEnum(cls)` (lines 393-407): the text returned and the
state after the document is written. -/
def genOneEnum (cls : Entity) (st : GenState) : Option (Str × GenState) :=
  let result := "## ".toList ++ encodeStr cls.name ++ "\n".toList
  let result := result ++ "### 概述\n".toList
  let result := result ++ cls.desc
  let result :=
    match cls.consts with
    | some _ => result ++ genConsts cls
    | none => result
  (writeResult cls.name result st).map (fun st => (result, st))

/-- The generator object: the field `clsName` (not set before the first
`genOne`) next to the counter and the files of `GenState`. -/
structure ApiGenerator where
  clsName : Option Str
  state : GenState
deriving DecidableEq

/-- The method `genOne(cls)` (lines 409-418): the entity and the generator
after the call. An entity whose type is neither `class` nor `enum` takes the
empty last branch. -/
def genOne (localeCompare : Str → Str → Int) (cls : Entity) (gen : ApiGenerator) :
    Option (Entity × ApiGenerator) :=
  let st : GenState := ⟨0, gen.state.files⟩
  let clsName := some cls.name
  if cls.type = "class".toList then
    (genOneClass localeCompare cls st).map (fun r => (r.1, ⟨clsName, r.2⟩))
  else if cls.type = "enum".toList then
    (genOneEnum cls st).map (fun r => (cls, ⟨clsName, r.2⟩))
  else some (cls, ⟨clsName, st⟩)

/-- The comparison of two strings by code units (negative, zero or
positive): a stand-in for `localeCompare` in examples where the order of the
members plays no part. -/
def compareCodeUnits (a b : Str) : Int :=
  if a ≤ b then (if b ≤ a then 0 else -1) else 1

/-- Example methods, out of name order: `set_text` and the private
`on_paint`. -/
def sampleMethods : List Member :=
  [ { name := "set_text".toList, desc := "Set the text.\nSee text.".toList, type := [],
      ret := ⟨"ret_t".toList, "RET_OK on success".toList⟩,
      params := [⟨"text".toList, "char*".toList, "the text".toList⟩],
      annotation := none },
    { name := "on_paint".toList, desc := "Paint.".toList, type := [],
      ret := ⟨"ret_t".toList, "".toList⟩, params := [],
      annotation := some ⟨false, false, false, false, false, false, false, true⟩ } ]

/-- Example properties, out of name order: `text` and the private `state`. -/
def sampleProperties : List Member :=
  [ { name := "text".toList, desc := "The text.".toList, type := "char*".toList,
      ret := ⟨[], []⟩, params := [],
      annotation := some ⟨true, true, true, true, true, true, true, false⟩ },
    { name := "state".toList, desc := "Internal state.".toList, type := "int".toList,
      ret := ⟨[], []⟩, params := [],
      annotation := some ⟨false, false, false, false, false, false, false, true⟩ } ]

/-- An example entity: the class `button` with parent `widget`, holding the
methods and the properties above. -/
def sampleClass : Entity :=
  { name := "button".toList
    type := "class".toList
    desc := "A push button.\n".toList
    parent := some "widget".toList
    methods := some sampleMethods
    properties := some sampleProperties
    consts := none
    events := none }

/-! ## The comparison of the runtime on names -/

/-- Whether a code unit is one a name is made of: an ASCII letter, an ASCII
digit or the underscore. -/
def isNameUnit (c : Char) : Bool := c.isAlphanum || c == '_'

/-- The first-level weight of a code unit of a name in the collation the
runtime applies by default (the root collation of its locale data): the
underscore comes before the digits, the digits before the letters, and a
letter has the same weight in lower and in upper case. Code units that no
name contains are placed after them. -/
def primaryWeight (c : Char) : Nat :=
  if c = '_' then 0
  else if c.isDigit then 1 + (c.toNat - 48)
  else if c.isUpper then 11 + (c.toNat - 65)
  else if c.isLower then 11 + (c.toNat - 97)
  else 1000 + c.toNat

/-- The case-level weight of a code unit in that collation: lower case
before upper case. -/
def caseWeight (c : Char) : Nat := if c.isUpper then 1 else 0

/-- The runtime function `a.localeCompare(b)` (called at lines 244 and 282,
defined by the JavaScript runtime and not by this program), on names made of
ASCII letters, digits and underscores, in the default collation: the lists of
first-level weights are compared lexicographically, a name before its
extensions; when they are equal, the lists of case-level weights are compared
the same way. The result is `-1`, `0` or `1`. -/
def localeCompareRoot (a b : Str) : Int :=
  if List.Lex (· < ·) (a.map primaryWeight) (b.map primaryWeight) then -1
  else if List.Lex (· < ·) (b.map primaryWeight) (a.map primaryWeight) then 1
  else if List.Lex (· < ·) (a.map caseWeight) (b.map caseWeight) then -1
  else if List.Lex (· < ·) (b.map caseWeight) (a.map caseWeight) then 1
  else 0

/-- The order of names in the default collation, stated on the weights: `a`
is before or equal to `b` when its first-level weights come first, or when
these are equal and its case-level weights come first or are equal too. -/
def collationLe (a b : Str) : Prop :=
  List.Lex (· < ·) (a.map primaryWeight) (b.map primaryWeight) ∨
    (a.map primaryWeight = b.map primaryWeight ∧
      (List.Lex (· < ·) (a.map caseWeight) (b.map caseWeight) ∨
        a.map caseWeight = b.map caseWeight))

/-- A member that has only a name, as far as sorting looks at it. -/
def namedMember (name : Str) : Member :=
  { name := name, desc := [], type := [], ret := ⟨[], []⟩, params := [], annotation := none }

/-- An example entity whose methods are named `Z`, `B`, `b`, `a` and `_x`. -/
def mixedCaseClass : Entity :=
  { name := "t".toList
    type := "class".toList
    desc := []
    parent := none
    methods := some [namedMember "Z".toList, namedMember "B".toList, namedMember "b".toList,
      namedMember "a".toList, namedMember "_x".toList]
    properties := none
    consts := none
    events := none }

/-! ## Searching: `findFrom` and `indexOf` -/

theorem findFrom_some_le (pat : Str) :
    ∀ (s : Str) (i : Nat), findFrom pat s = some i → i + pat.length ≤ s.length := by
  intro s
  induction s with
  | nil =>
    intro i h
    simp only [findFrom] at h
    split at h
    · rename_i hp
      have hp' : pat <+: [] := List.isPrefixOf_iff_prefix.mp hp
      have := hp'.length_le
      simp at h
      simp at this
      subst h
      simp [this]
    · simp at h
  | cons c cs ih =>
    intro i h
    simp only [findFrom] at h
    split at h
    · rename_i hp
      have hp' : pat <+: c :: cs := List.isPrefixOf_iff_prefix.mp hp
      have := hp'.length_le
      simp at h
      subst h
      simpa using this
    · cases hf : findFrom pat cs with
      | none => simp [hf] at h
      | some j =>
        simp [hf] at h
        have := ih j hf
        subst h
        simp only [List.length_cons]
        omega

theorem findFrom_eq_none_iff (pat : Str) : ∀ s : Str, findFrom pat s = none ↔ ¬ pat <:+: s := by
  intro s
  induction s with
  | nil =>
    simp only [findFrom]
    by_cases hp : pat.isPrefixOf [] = true
    · have hp' : pat <+: [] := List.isPrefixOf_iff_prefix.mp hp
      simp [hp, hp'.isInfix]
    · have : ¬ pat <:+: [] := by
        intro h
        apply hp
        have : pat = [] := List.eq_nil_of_infix_nil h
        subst this
        rfl
      simp [hp, this]
  | cons c cs ih =>
    simp only [findFrom]
    by_cases hp : pat.isPrefixOf (c :: cs) = true
    · have hp' : pat <+: c :: cs := List.isPrefixOf_iff_prefix.mp hp
      simp [hp, hp'.isInfix]
    · have hp' : ¬ pat <+: c :: cs := fun h => hp (List.isPrefixOf_iff_prefix.mpr h)
      rw [if_neg hp, List.infix_cons_iff]
      simp [ih, hp']

theorem indexOf_of_some (str pat : Str) (pos : Int) (i : Nat)
    (h : findFrom pat (str.drop (min pos.toNat str.length)) = some i) :
    indexOf str pat pos = ((min pos.toNat str.length + i : Nat) : Int) := by
  simp only [indexOf, h]

theorem indexOf_of_none (str pat : Str) (pos : Int)
    (h : findFrom pat (str.drop (min pos.toNat str.length)) = none) :
    indexOf str pat pos = -1 := by
  simp only [indexOf, h]

theorem indexOf_cases (str pat : Str) (pos : Int) :
    indexOf str pat pos = -1 ∨
      ((min pos.toNat str.length : Nat) : Int) ≤ indexOf str pat pos ∧
        indexOf str pat pos + pat.length ≤ str.length := by
  cases h : findFrom pat (str.drop (min pos.toNat str.length)) with
  | none => left; exact indexOf_of_none str pat pos h
  | some i =>
    right
    rw [indexOf_of_some str pat pos i h]
    have hb := findFrom_some_le pat _ i h
    simp only [List.length_drop] at hb
    have : min pos.toNat str.length ≤ str.length := Nat.min_le_right _ _
    constructor
    · push_cast
      omega
    · push_cast
      omega

theorem indexOf_eq_neg_one (str pat : Str) (pos : Int)
    (h : ¬ pat <:+: str.drop (min pos.toNat str.length)) : indexOf str pat pos = -1 :=
  indexOf_of_none str pat pos ((findFrom_eq_none_iff pat _).mpr h)

/-! ## The loop of `split` leaves within `str.length + 1` iterations -/

theorem splitLoop_some (str : Str) (type : String) (stag etag : Str)
    (htags : 0 < stag.length + etag.length) :
    ∀ (fuel : Nat) (start end_ : Int) (result : List Segment),
      0 ≤ start → start ≤ str.length → (str.length : Int) - start < fuel →
      (splitLoop str type stag etag fuel start end_ result).isSome = true := by
  intro fuel
  induction fuel with
  | zero => intro start end_ result h0 h1 h2; omega
  | succ fuel ih =>
    intro start end_ result h0 h1 h2
    simp only [splitLoop]
    split
    · rfl
    · rename_i hs
      split
      · rfl
      · rename_i he
        have hS := indexOf_cases str stag start
        have hE := indexOf_cases str etag (indexOf str stag start + stag.length)
        rcases hS with hS | ⟨hS1, hS2⟩
        · omega
        rcases hE with hE | ⟨hE1, hE2⟩
        · omega
        have hmin1 : ((min start.toNat str.length : Nat) : Int) = start := by
          have : start.toNat ≤ str.length := by omega
          rw [Nat.min_eq_left this]
          omega
        have hmin2 : ((min (indexOf str stag start + stag.length).toNat str.length : Nat) : Int)
            = indexOf str stag start + stag.length := by
          have : (indexOf str stag start + stag.length).toNat ≤ str.length := by omega
          rw [Nat.min_eq_left this]
          omega
        apply ih
        · omega
        · omega
        · push_cast at h2
          omega

/-- More fuel does not change what the loop returns. -/
theorem splitLoop_fuel_succ (str : Str) (type : String) (stag etag : Str) :
    ∀ (fuel : Nat) (start end_ : Int) (result : List Segment) (r : Int × List Segment),
      splitLoop str type stag etag fuel start end_ result = some r →
      splitLoop str type stag etag (fuel + 1) start end_ result = some r := by
  intro fuel
  induction fuel with
  | zero => intro start end_ result r h; simp [splitLoop] at h
  | succ fuel ih =>
    intro start end_ result r h
    rw [splitLoop] at h
    rw [splitLoop]
    simp only at h ⊢
    split
    · rename_i hs; simpa [hs] using h
    · rename_i hs
      rw [if_neg hs] at h
      split
      · rename_i he; simpa [he] using h
      · rename_i he
        rw [if_neg he] at h
        exact ih _ _ _ _ h

theorem split_isSome (str : Str) (type : String) (stag etag : Str)
    (htags : 0 < stag.length + etag.length) : (split str type stag etag).isSome = true := by
  have h := splitLoop_some str type stag etag htags (str.length + 1) 0 0 []
    (le_refl _) (by omega) (by push_cast; omega)
  unfold split
  cases hl : splitLoop str type stag etag (str.length + 1) 0 0 [] with
  | none => simp [hl] at h
  | some r =>
    obtain ⟨e, res⟩ := r
    simp only
    split <;> rfl

theorem splitAll_eq_split (str : Str) :
    splitAll str = split str "code" "```".toList "```".toList := by
  unfold splitAll splitStrs
  simp only [List.foldlM]
  rw [if_pos True.intro]
  cases h : split str "code" "```".toList "```".toList with
  | none => rfl
  | some r => rfl

theorem splitAll_isSome (str : Str) : (splitAll str).isSome = true := by
  rw [splitAll_eq_split]
  exact split_isSome str _ _ _ (by decide)

/-! ## Underscore escaping -/

theorem encodeStr_nil : encodeStr [] = [] := rfl

theorem encodeStr_cons (c : Char) (cs : Str) :
    encodeStr (c :: cs) = if c = '_' then '\\' :: '_' :: encodeStr cs else c :: encodeStr cs := by
  by_cases h : c = '_'
  · subst h
    simp [encodeStr, replaceAll, replaceAllAux]
  · have h' : ¬ '_' = c := fun e => h e.symm
    simp [encodeStr, replaceAll, replaceAllAux, h, h']

theorem encodeStr_eq_self (s : Str) (h : '_' ∉ s) : encodeStr s = s := by
  induction s with
  | nil => rfl
  | cons c cs ih =>
    have hc : c ≠ '_' := fun e => h (by simp [e])
    have hcs : '_' ∉ cs := fun e => h (List.mem_cons_of_mem _ e)
    rw [encodeStr_cons, if_neg hc, ih hcs]

theorem length_encodeStr (s : Str) : (encodeStr s).length = s.length + s.count '_' := by
  induction s with
  | nil => rfl
  | cons c cs ih =>
    rw [encodeStr_cons]
    by_cases hc : c = '_'
    · subst hc
      simp [ih]
      omega
    · have hc' : (c == '_') = false := by simpa using hc
      simp [hc, ih, List.count_cons, hc']
      omega

theorem count_encodeStr (s : Str) : (encodeStr s).count '_' = s.count '_' := by
  induction s with
  | nil => rfl
  | cons c cs ih =>
    rw [encodeStr_cons]
    by_cases hc : c = '_'
    · subst hc
      simp [ih, List.count_cons]
    · have hc' : (c == '_') = false := by simpa using hc
      simp [hc, ih, List.count_cons, hc']

/-! ## The image counter of `preprocess` -/

theorem indexOf_zero_nonneg_iff (str pat : Str) : 0 ≤ indexOf str pat 0 ↔ pat <:+: str := by
  have hd : str.drop (min (0 : Int).toNat str.length) = str := by simp
  cases h : findFrom pat (str.drop (min (0 : Int).toNat str.length)) with
  | none =>
    rw [indexOf_of_none str pat 0 h]
    have := (findFrom_eq_none_iff pat _).mp h
    rw [hd] at this
    simp [this]
  | some i =>
    rw [indexOf_of_some str pat 0 i h]
    have hne : findFrom pat str ≠ none := by rw [hd] at h; simp [h]
    have : pat <:+: str := by
      by_contra hc
      exact hne ((findFrom_eq_none_iff pat str).mpr hc)
    simp [this]

theorem preprocessIter_of_not_diagram (n : Str) (seg : Segment) (st : GenState)
    (h : isDiagram seg = false) : preprocessIter n seg st = (seg, st) := by
  unfold preprocessIter
  by_cases ht : seg.type = "code"
  · have hg : ¬ "```graphviz".toList <:+: seg.data := by
      intro hc
      simp only [isDiagram, ht, decide_True, Bool.true_and, Bool.or_eq_false_iff,
        decide_eq_false_iff_not] at h
      exact h.1 hc
    have hu : ¬ "```uml".toList <:+: seg.data := by
      intro hc
      simp only [isDiagram, ht, decide_True, Bool.true_and, Bool.or_eq_false_iff,
        decide_eq_false_iff_not] at h
      exact h.2 hc
    have hg' : ¬ indexOf seg.data "```graphviz".toList 0 ≥ 0 :=
      fun hc => hg ((indexOf_zero_nonneg_iff _ _).mp hc)
    have hu' : ¬ indexOf seg.data "```uml".toList 0 ≥ 0 :=
      fun hc => hu ((indexOf_zero_nonneg_iff _ _).mp hc)
    rw [if_pos ht]
    simp only
    rw [if_neg hg', if_neg hu']
  · rw [if_neg ht]

theorem preprocessIter_of_diagram (n : Str) (seg : Segment) (k : Nat) (fs : List (Str × Str))
    (h : isDiagram seg = true) :
    ∃ content, preprocessIter n seg ⟨k, fs⟩ =
      (⟨seg.type, imageRefFor n k⟩, ⟨k + 1, fs ++ [(sideFileName n k seg, content)]⟩) := by
  have ht : seg.type = "code" := by
    simp only [isDiagram, Bool.and_eq_true, decide_eq_true_eq] at h
    exact h.1
  unfold preprocessIter
  rw [if_pos ht]
  by_cases hg : "```graphviz".toList <:+: seg.data
  · have hg' : indexOf seg.data "```graphviz".toList 0 ≥ 0 := (indexOf_zero_nonneg_iff _ _).mpr hg
    simp only
    rw [if_pos hg']
    refine ⟨replaceAll "[default_style]".toList graphviz_default_style
      (replaceFirst "```".toList "\x7d".toList
        (replaceFirst "```graphviz".toList "digraph G \x7b".toList seg.data)), ?_⟩
    simp only [preprocessGraphviz, imageRef, imageName, imageRefFor, sideFileName, if_pos hg,
      List.append_assoc]
  · have hg' : ¬ indexOf seg.data "```graphviz".toList 0 ≥ 0 :=
      fun hc => hg ((indexOf_zero_nonneg_iff _ _).mp hc)
    have hu : "```uml".toList <:+: seg.data := by
      simp only [isDiagram, Bool.and_eq_true, Bool.or_eq_true, decide_eq_true_eq] at h
      rcases h.2 with h2 | h2
      · exact absurd h2 hg
      · exact h2
    have hu' : indexOf seg.data "```uml".toList 0 ≥ 0 := (indexOf_zero_nonneg_iff _ _).mpr hu
    simp only
    rw [if_neg hg', if_pos hu']
    refine ⟨replaceFirst "```".toList "@enduml".toList
      (replaceFirst "```uml".toList "@startuml".toList seg.data), ?_⟩
    simp only [preprocessUML, imageRef, imageName, imageRefFor, sideFileName, if_neg hg,
      List.append_assoc]

theorem preprocessIters_state (n : Str) :
    ∀ (segs : List Segment) (k : Nat) (fs : List (Str × Str)),
      (preprocessIters n segs ⟨k, fs⟩).2.imageIndex = k + (segs.filter isDiagram).length ∧
      (preprocessIters n segs ⟨k, fs⟩).2.files.map Prod.fst =
        fs.map Prod.fst ++
          ((segs.filter isDiagram).enumFrom k).map (fun p => sideFileName n p.1 p.2) := by
  intro segs
  induction segs with
  | nil => intro k fs; simp [preprocessIters]
  | cons seg rest ih =>
    intro k fs
    simp only [preprocessIters]
    cases hd : isDiagram seg with
    | true =>
      obtain ⟨content, hc⟩ := preprocessIter_of_diagram n seg k fs hd
      rw [hc]
      obtain ⟨ih1, ih2⟩ := ih (k + 1) (fs ++ [(sideFileName n k seg, content)])
      simp only [List.filter_cons, hd, if_true, List.length_cons, List.enumFrom_cons,
        List.map_cons]
      constructor
      · rw [ih1]; omega
      · rw [ih2]; simp
    | false =>
      rw [preprocessIter_of_not_diagram n seg _ hd]
      obtain ⟨ih1, ih2⟩ := ih k fs
      simp only [List.filter_cons, hd]
      exact ⟨ih1, ih2⟩

theorem preprocessIters_data (n : Str) :
    ∀ (segs : List Segment) (k : Nat) (fs : List (Str × Str)),
      (preprocessIters n segs ⟨k, fs⟩).1.map Segment.data =
        (segs.enumFrom 0).map (fun p =>
          if isDiagram p.2 then
            imageRefFor n (k + ((segs.take p.1).filter isDiagram).length)
          else p.2.data) := by
  intro segs
  induction segs with
  | nil => intro k fs; simp [preprocessIters]
  | cons seg rest ih =>
    intro k fs
    have hshift : List.enumFrom (0 + 1) rest
        = List.map (Prod.map (· + 1) id) (List.enumFrom 0 rest) :=
      (List.map_fst_add_enumFrom_eq_enumFrom rest 1 0).symm
    simp only [preprocessIters, List.enumFrom_cons, List.map_cons, hshift, List.map_map]
    cases hd : isDiagram seg with
    | true =>
      obtain ⟨content, hc⟩ := preprocessIter_of_diagram n seg k fs hd
      rw [hc]
      simp only [if_true, List.take_zero, List.filter_nil, List.length_nil, Nat.add_zero]
      congr 1
      rw [ih (k + 1) _]
      apply List.map_congr_left
      intro p _
      simp only [Function.comp, Prod.map, id, List.take_succ_cons, List.filter_cons, hd,
        if_true, List.length_cons]
      have : k + 1 + (List.filter isDiagram (List.take p.1 rest)).length
          = k + ((List.filter isDiagram (List.take p.1 rest)).length + 1) := by omega
      rw [this]
    | false =>
      rw [preprocessIter_of_not_diagram n seg _ hd]
      simp only [Bool.false_eq_true, if_false]
      congr 1
      rw [ih k fs]
      apply List.map_congr_left
      intro p _
      simp only [Function.comp, Prod.map, id, List.take_succ_cons, List.filter_cons, hd,
        Bool.false_eq_true, if_false]

theorem foldl_data_eq (segs : List Segment) :
    ∀ acc : Str, segs.foldl (fun result iter => result ++ iter.data) acc
      = acc ++ (segs.map Segment.data).flatten := by
  induction segs with
  | nil => intro acc; simp
  | cons seg rest ih => intro acc; simp [ih]

/-! ## A fence made of one repeated code unit, closing a body -/

theorem singleton_suffix_iff (q : Char) (l : Str) : [q] <:+ l ↔ l.getLast? = some q := by
  constructor
  · rintro ⟨t, rfl⟩
    exact List.getLast?_concat t
  · intro h
    rcases List.eq_nil_or_concat l with rfl | ⟨L, b, rfl⟩
    · simp at h
    · rw [List.concat_eq_append, List.getLast?_concat] at h
      cases h
      rw [List.concat_eq_append]
      exact ⟨L, rfl⟩

theorem triple_not_prefix (q : Char) (body : Str) (hne : body ≠ [])
    (hinf : ¬ [q, q, q] <:+: body) (hsuf : ¬ [q] <:+ body) :
    ¬ [q, q, q] <+: body ++ [q, q, q] := by
  intro h
  match body, hne with
  | [c1], _ =>
    simp only [List.singleton_append, List.cons_prefix_cons] at h
    apply hsuf
    rw [h.1]
  | [c1, c2], _ =>
    simp only [List.cons_append, List.nil_append, List.cons_prefix_cons] at h
    apply hsuf
    rw [← h.2.1]
    exact ⟨[c1], rfl⟩
  | c1 :: c2 :: c3 :: r, _ =>
    simp only [List.cons_append, List.cons_prefix_cons] at h
    apply hinf
    rw [← h.1, ← h.2.1, ← h.2.2.1]
    exact ⟨[], r, rfl⟩

theorem isPrefixOf_self_append (pat rest : Str) : pat.isPrefixOf (pat ++ rest) = true :=
  List.isPrefixOf_iff_prefix.mpr (List.prefix_append pat rest)

theorem findFrom_append_triple (q : Char) :
    ∀ body : Str, ¬ [q, q, q] <:+: body → ¬ [q] <:+ body →
      findFrom [q, q, q] (body ++ [q, q, q]) = some body.length := by
  intro body
  induction body with
  | nil =>
    intro _ _
    simp [findFrom]
  | cons c cs ih =>
    intro hinf hsuf
    have hnp : ¬ [q, q, q] <+: (c :: cs) ++ [q, q, q] :=
      triple_not_prefix q (c :: cs) (by simp) hinf hsuf
    have hnp' : ¬ ([q, q, q] : Str).isPrefixOf (c :: (cs ++ [q, q, q])) = true :=
      fun h => hnp (List.isPrefixOf_iff_prefix.mp h)
    have hinf' : ¬ [q, q, q] <:+: cs := fun h => hinf (List.infix_cons h)
    have hsuf' : ¬ [q] <:+ cs := fun h => hsuf (List.suffix_cons_iff.mpr (Or.inr h))
    rw [List.cons_append, findFrom, if_neg hnp', ih hinf' hsuf']
    rfl

theorem replaceFirst_append_triple (q : Char) (rep : Str) :
    ∀ body : Str, ¬ [q, q, q] <:+: body → ¬ [q] <:+ body →
      replaceFirst [q, q, q] rep (body ++ [q, q, q]) = body ++ rep := by
  intro body
  induction body with
  | nil =>
    intro _ _
    simp [replaceFirst]
  | cons c cs ih =>
    intro hinf hsuf
    have hnp : ¬ [q, q, q] <+: (c :: cs) ++ [q, q, q] :=
      triple_not_prefix q (c :: cs) (by simp) hinf hsuf
    have hnp' : ¬ ([q, q, q] : Str).isPrefixOf (c :: (cs ++ [q, q, q])) = true :=
      fun h => hnp (List.isPrefixOf_iff_prefix.mp h)
    have hinf' : ¬ [q, q, q] <:+: cs := fun h => hinf (List.infix_cons h)
    have hsuf' : ¬ [q] <:+ cs := fun h => hsuf (List.suffix_cons_iff.mpr (Or.inr h))
    rw [List.cons_append, replaceFirst, if_neg hnp', ih hinf' hsuf']
    rfl

theorem triple_infix_of_append_left (q : Char) :
    ∀ p body : Str, q ∉ p → [q, q, q] <:+: p ++ body → [q, q, q] <:+: body := by
  intro p
  induction p with
  | nil => intro body _ h; simpa using h
  | cons c cs ih =>
    intro body hq h
    have hc : q ≠ c := fun e => hq (by simp [e])
    have hcs : q ∉ cs := fun e => hq (List.mem_cons_of_mem _ e)
    rw [List.cons_append, List.infix_cons_iff] at h
    rcases h with h | h
    · rw [List.cons_prefix_cons] at h
      exact absurd h.1 hc
    · exact ih body hcs h

theorem singleton_suffix_of_append_left (q : Char) (p body : Str) (hq : q ∉ p)
    (h : [q] <:+ p ++ body) : [q] <:+ body := by
  rw [singleton_suffix_iff] at h ⊢
  rw [List.getLast?_append] at h
  cases hb : body.getLast? with
  | some x => rw [hb] at h; simpa using h
  | none =>
    rw [hb] at h
    simp only [Option.or] at h
    exact absurd (List.mem_of_getLast?_eq_some h) hq

/-! ## Global replacement around a body -/

theorem replaceAllAux_append_left (h : Char) (t rep : Str) :
    ∀ p rest : Str, h ∉ p →
      replaceAllAux (h :: t) rep 0 (p ++ rest) = p ++ replaceAllAux (h :: t) rep 0 rest := by
  intro p
  induction p with
  | nil => intro rest _; rfl
  | cons c cs ih =>
    intro rest hp
    have hc : h ≠ c := fun e => hp (by simp [e])
    have hcs : h ∉ cs := fun e => hp (List.mem_cons_of_mem _ e)
    have hnp : ¬ (h :: t).isPrefixOf (c :: (cs ++ rest)) = true := by
      simp [List.isPrefixOf, hc]
    rw [List.cons_append, replaceAllAux, if_neg hnp, ih rest hcs]
    rfl

theorem replaceAllAux_append_right (pat rep q : Str)
    (hq : ∀ b : Str, pat.isPrefixOf (b ++ q) = pat.isPrefixOf b) :
    ∀ (body : Str) (skip : Nat), skip ≤ body.length →
      replaceAllAux pat rep skip (body ++ q)
        = replaceAllAux pat rep skip body ++ replaceAllAux pat rep 0 q := by
  intro body
  induction body with
  | nil =>
    intro skip hs
    have : skip = 0 := by simpa using hs
    subst this
    cases q <;> simp [replaceAllAux]
  | cons c cs ih =>
    intro skip hs
    cases skip with
    | succ k =>
      simp only [List.cons_append, replaceAllAux]
      exact ih k (by simpa using hs)
    | zero =>
      have hq' := hq (c :: cs)
      rw [List.cons_append] at hq'
      rw [List.cons_append, replaceAllAux, replaceAllAux, hq']
      by_cases hp : pat.isPrefixOf (c :: cs) = true
      · have hlen := (List.isPrefixOf_iff_prefix.mp hp).length_le
        simp only [List.length_cons] at hlen
        rw [if_pos hp, if_pos hp, ih (pat.length - 1) (by omega), List.append_assoc]
      · rw [if_neg hp, if_neg hp, ih 0 (Nat.zero_le _)]
        rfl

theorem isPrefixOf_append_singleton (pat : Str) (x y : Char) (hx : pat.getLast? = some x)
    (hxy : x ≠ y) (b : Str) : pat.isPrefixOf (b ++ [y]) = pat.isPrefixOf b := by
  have hiff : pat <+: b ++ [y] ↔ pat <+: b := by
    rw [List.prefix_concat_iff]
    constructor
    · rintro (h | h)
      · rw [h, List.getLast?_concat] at hx
        cases hx
        exact absurd rfl hxy
      · exact h
    · exact Or.inr
  by_cases hb : pat <+: b
  · rw [List.isPrefixOf_iff_prefix.mpr hb, List.isPrefixOf_iff_prefix.mpr (hiff.mpr hb)]
  · have h1 : pat.isPrefixOf b = false := by
      cases h : pat.isPrefixOf b with
      | false => rfl
      | true => exact absurd (List.isPrefixOf_iff_prefix.mp h) hb
    have h2 : pat.isPrefixOf (b ++ [y]) = false := by
      cases h : pat.isPrefixOf (b ++ [y]) with
      | false => rfl
      | true => exact absurd (hiff.mp (List.isPrefixOf_iff_prefix.mp h)) hb
    rw [h1, h2]

/-! ## `split` on a string that is exactly one tagged block -/

theorem splitLoop_fuel_mono (str : Str) (type : String) (stag etag : Str)
    (start end_ : Int) (result : List Segment) (r : Int × List Segment) :
    ∀ (d fuel : Nat), splitLoop str type stag etag fuel start end_ result = some r →
      splitLoop str type stag etag (fuel + d) start end_ result = some r := by
  intro d
  induction d with
  | zero => intro fuel h; exact h
  | succ d ih =>
    intro fuel h
    exact splitLoop_fuel_succ str type stag etag (fuel + d) start end_ result r (ih fuel h)

theorem findFrom_of_isPrefixOf (pat s : Str) (h : pat.isPrefixOf s = true) :
    findFrom pat s = some 0 := by
  cases s with
  | nil => rw [findFrom, if_pos h]
  | cons c cs => rw [findFrom, if_pos h]

theorem indexOf_at (pre rest pat : Str) (i : Nat) (h : findFrom pat rest = some i) :
    indexOf (pre ++ rest) pat (pre.length : Int) = ((pre.length + i : Nat) : Int) := by
  have hmin : min ((pre.length : Int)).toNat (pre ++ rest).length = pre.length := by
    simp
  have hdrop : (pre ++ rest).drop (min ((pre.length : Int)).toNat (pre ++ rest).length) = rest := by
    rw [hmin]; simp
  rw [indexOf_of_some (pre ++ rest) pat pre.length i (by rw [hdrop]; exact h), hmin]

theorem indexOf_end (s pat : Str) (hp : pat ≠ []) : indexOf s pat (s.length : Int) = -1 := by
  apply indexOf_of_none
  have : s.drop (min ((s.length : Int)).toNat s.length) = [] := by simp
  rw [this, findFrom]
  have : ¬ pat.isPrefixOf [] = true := by
    intro h
    exact hp (List.prefix_nil.mp (List.isPrefixOf_iff_prefix.mp h))
  rw [if_neg this]

theorem substr_whole (s : Str) : substr s 0 (s.length : Int) = s := by
  simp [substr]

theorem substrFrom_zero (s : Str) : substrFrom s 0 = s := by
  simp [substrFrom]

theorem split_single (type : String) (stag etag mid : Str) (hs : stag ≠ [])
    (hmid : findFrom etag (mid ++ etag) = some mid.length) :
    split (stag ++ (mid ++ etag)) type stag etag
      = some [⟨type, stag ++ (mid ++ etag)⟩] := by
  have h1 : indexOf (stag ++ (mid ++ etag)) stag 0 = 0 := by
    have := indexOf_at [] (stag ++ (mid ++ etag)) stag 0
      (findFrom_of_isPrefixOf _ _ (isPrefixOf_self_append stag _))
    simpa using this
  have h2 : indexOf (stag ++ (mid ++ etag)) etag (0 + (stag.length : Int))
      = ((stag.length + mid.length : Nat) : Int) := by
    rw [Int.zero_add]
    exact indexOf_at stag (mid ++ etag) etag mid.length hmid
  have hlen : ((stag.length + mid.length : Nat) : Int) + (etag.length : Int)
      = ((stag ++ (mid ++ etag)).length : Int) := by
    simp only [List.length_append]
    push_cast
    omega
  have h3 := indexOf_end (stag ++ (mid ++ etag)) stag hs
  have hloop : splitLoop (stag ++ (mid ++ etag)) type stag etag 2 0 0 []
      = some (((stag ++ (mid ++ etag)).length : Int), [⟨type, stag ++ (mid ++ etag)⟩]) := by
    simp only [splitLoop, h1, h2, hlen, h3]
    have hnn : ¬ ((stag.length + mid.length : Nat) : Int) < 0 := by omega
    rw [if_neg (by decide), if_neg hnn, if_pos (by decide), if_neg (by decide), Int.sub_zero,
      substr_whole]
    rfl
  have hpos : 0 < stag.length := List.length_pos.mpr hs
  have hfuel : (stag ++ (mid ++ etag)).length + 1 = 2 + ((stag ++ (mid ++ etag)).length - 1) := by
    simp only [List.length_append]
    omega
  have hloop' := splitLoop_fuel_mono _ type stag etag 0 0 [] _
    ((stag ++ (mid ++ etag)).length - 1) 2 hloop
  rw [← hfuel] at hloop'
  unfold split
  rw [hloop']
  simp

theorem replaceFirst_of_prefix (pat rep rest : Str) :
    replaceFirst pat rep (pat ++ rest) = rep ++ rest := by
  have hp := isPrefixOf_self_append pat rest
  cases h : pat ++ rest with
  | nil =>
    rw [h] at hp
    have hpat : pat = [] := (List.append_eq_nil.mp h).1
    have hrest : rest = [] := (List.append_eq_nil.mp h).2
    rw [replaceFirst, if_pos hp, hrest, List.append_nil]
  | cons c cs =>
    rw [h] at hp
    rw [replaceFirst, if_pos hp, ← h, List.drop_left]

/-! ## One iteration of the loop of `split`, on list positions -/

theorem substr_nat (s : Str) (a b : Nat) (h : a + b ≤ s.length) :
    substr s (a : Int) (b : Int) = (s.drop a).take b := by
  unfold substr
  have h1 : ¬ ((a : Int) < 0) := by omega
  simp only [if_neg h1]
  have h2 : min (a : Int) (s.length : Int) = a := by omega
  have h3 : min (max (b : Int) 0) (s.length : Int) = b := by omega
  rw [h2, h3]
  have h4 : min ((a : Int) + b) (s.length : Int) = a + b := by omega
  rw [h4]
  have h5 : ((a : Int) + b - a).toNat = b := by omega
  rw [h5, Int.toNat_ofNat]

theorem substrFrom_nat (s : Str) (a : Nat) (h : a ≤ s.length) :
    substrFrom s (a : Int) = s.drop a := by
  unfold substrFrom
  have h1 : ¬ ((a : Int) < 0) := by omega
  simp only [if_neg h1]
  have h2 : min (a : Int) (s.length : Int) = a := by omega
  rw [h2, Int.toNat_ofNat]

theorem indexOf_nat_some (s pat : Str) (c i : Nat) (hc : c ≤ s.length)
    (h : findFrom pat (s.drop c) = some i) : indexOf s pat (c : Int) = ((c + i : Nat) : Int) := by
  have hmin : min ((c : Int)).toNat s.length = c := by
    rw [Int.toNat_ofNat]; exact Nat.min_eq_left hc
  rw [indexOf_of_some s pat c i (by rw [hmin]; exact h), hmin]

theorem indexOf_nat_none (s pat : Str) (c : Nat) (hc : c ≤ s.length)
    (h : findFrom pat (s.drop c) = none) : indexOf s pat (c : Int) = -1 := by
  have hmin : min ((c : Int)).toNat s.length = c := by
    rw [Int.toNat_ofNat]; exact Nat.min_eq_left hc
  exact indexOf_of_none s pat c (by rw [hmin]; exact h)

theorem findFrom_drop_le (s pat : Str) (c i : Nat) (hc : c ≤ s.length)
    (h : findFrom pat (s.drop c) = some i) : c + i + pat.length ≤ s.length := by
  have := findFrom_some_le pat _ i h
  simp only [List.length_drop] at this
  omega

theorem splitLoop_exit_start (s : Str) (type : String) (stag etag : Str) (fuel c : Nat)
    (e : Int) (result : List Segment) (hc : c ≤ s.length)
    (h : findFrom stag (s.drop c) = none) :
    splitLoop s type stag etag (fuel + 1) (c : Int) e result = some (e, result) := by
  rw [splitLoop]
  simp only [indexOf_nat_none s stag c hc h]
  rw [if_pos (by decide)]

theorem splitLoop_exit_end (s : Str) (type : String) (stag etag : Str) (fuel c i : Nat)
    (e : Int) (result : List Segment) (hc : c ≤ s.length)
    (hi : findFrom stag (s.drop c) = some i)
    (hj : findFrom etag (s.drop (c + i + stag.length)) = none) :
    splitLoop s type stag etag (fuel + 1) (c : Int) e result = some (-1, result) := by
  have hb := findFrom_drop_le s stag c i hc hi
  have hpos : ((c + i : Nat) : Int) + (stag.length : Int) = ((c + i + stag.length : Nat) : Int) := by
    push_cast; rfl
  rw [splitLoop]
  simp only [indexOf_nat_some s stag c i hc hi, hpos,
    indexOf_nat_none s etag (c + i + stag.length) hb hj]
  rw [if_neg (by omega), if_pos (by decide)]

theorem splitLoop_match (s : Str) (type : String) (stag etag : Str) (fuel c i j : Nat)
    (e : Int) (result : List Segment) (hc : c ≤ s.length)
    (hi : findFrom stag (s.drop c) = some i)
    (hj : findFrom etag (s.drop (c + i + stag.length)) = some j) :
    splitLoop s type stag etag (fuel + 1) (c : Int) e result =
      splitLoop s type stag etag fuel ((c + i + stag.length + j + etag.length : Nat) : Int)
        ((c + i + stag.length + j + etag.length : Nat) : Int)
        (pushMatch s type stag etag c i j result) := by
  have hb := findFrom_drop_le s stag c i hc hi
  have hb2 := findFrom_drop_le s etag (c + i + stag.length) j hb hj
  have hpos : ((c + i : Nat) : Int) + (stag.length : Int) = ((c + i + stag.length : Nat) : Int) := by
    push_cast; rfl
  have hend : ((c + i + stag.length + j : Nat) : Int) + (etag.length : Int)
      = ((c + i + stag.length + j + etag.length : Nat) : Int) := by
    push_cast; rfl
  have hlen1 : ((c + i : Nat) : Int) - (c : Int) = ((i : Nat) : Int) := by
    push_cast; omega
  have hlen2 : ((c + i + stag.length + j + etag.length : Nat) : Int) - ((c + i : Nat) : Int)
      = ((stag.length + j + etag.length : Nat) : Int) := by
    push_cast; omega
  rw [splitLoop]
  simp only [indexOf_nat_some s stag c i hc hi, hpos,
    indexOf_nat_some s etag (c + i + stag.length) j hb hj, hend, hlen1, hlen2]
  rw [if_neg (by omega), if_neg (by omega),
    substr_nat s c i (by omega), substr_nat s (c + i) (stag.length + j + etag.length) (by omega)]
  unfold pushMatch
  by_cases h0 : 0 < i
  · have : ((c + i : Nat) : Int) > (c : Int) := by omega
    rw [if_pos this, if_pos h0]
  · have : ¬ ((c + i : Nat) : Int) > (c : Int) := by omega
    rw [if_neg this, if_neg h0]

/-! ## Invariants of the loop of `split` -/

/-- Induction over the iterations of the loop: a property of the cursor and
of `result` that every matching iteration keeps holds when the loop leaves,
and the loop leaves either at a failed search for the start tag, returning the
cursor, or at a failed search for the end tag, returning `-1`. -/
theorem splitLoop_invariant (s : Str) (type : String) (stag etag : Str)
    (P : Nat → List Segment → Prop)
    (hstep : ∀ (c i j : Nat) (result : List Segment), c ≤ s.length →
      findFrom stag (s.drop c) = some i →
      findFrom etag (s.drop (c + i + stag.length)) = some j →
      P c result →
      P (c + i + stag.length + j + etag.length) (pushMatch s type stag etag c i j result)) :
    ∀ (fuel c : Nat) (result : List Segment) (e : Int) (r : List Segment),
      c ≤ s.length → P c result →
      splitLoop s type stag etag fuel (c : Int) (c : Int) result = some (e, r) →
      ∃ c' : Nat, c' ≤ s.length ∧ P c' r ∧
        ((e = (c' : Int) ∧ findFrom stag (s.drop c') = none) ∨
          (e = -1 ∧ ∃ i, findFrom stag (s.drop c') = some i ∧
            findFrom etag (s.drop (c' + i + stag.length)) = none)) := by
  intro fuel
  induction fuel with
  | zero => intro c result e r _ _ h; simp [splitLoop] at h
  | succ fuel ih =>
    intro c result e r hc hP h
    cases hi : findFrom stag (s.drop c) with
    | none =>
      rw [splitLoop_exit_start s type stag etag fuel c _ result hc hi] at h
      simp only [Option.some.injEq, Prod.mk.injEq] at h
      obtain ⟨he, hr⟩ := h
      subst hr
      exact ⟨c, hc, hP, Or.inl ⟨he.symm, hi⟩⟩
    | some i =>
      cases hj : findFrom etag (s.drop (c + i + stag.length)) with
      | none =>
        rw [splitLoop_exit_end s type stag etag fuel c i _ result hc hi hj] at h
        simp only [Option.some.injEq, Prod.mk.injEq] at h
        obtain ⟨he, hr⟩ := h
        subst hr
        exact ⟨c, hc, hP, Or.inr ⟨he.symm, i, hi, hj⟩⟩
      | some j =>
        rw [splitLoop_match s type stag etag fuel c i j _ result hc hi hj] at h
        have hb := findFrom_drop_le s stag c i hc hi
        have hb2 := findFrom_drop_le s etag (c + i + stag.length) j hb hj
        exact ih _ _ e r hb2 (hstep c i j result hc hi hj hP) h

/-- The segments pushed so far are the input up to the cursor. -/
theorem splitLoop_cover_step (s : Str) (type : String) (stag etag : Str)
    (c i j : Nat) (result : List Segment)
    (hP : (result.map Segment.data).flatten = s.take c) :
    ((pushMatch s type stag etag c i j result).map Segment.data).flatten
      = s.take (c + i + stag.length + j + etag.length) := by
  have e1 : c + i + stag.length + j + etag.length = c + i + (stag.length + j + etag.length) := by
    omega
  rw [e1, List.take_add s (c + i), List.take_add s c]
  unfold pushMatch
  by_cases h0 : 0 < i
  · simp [if_pos h0, hP]
  · have : i = 0 := by omega
    subst this
    simp [hP]

theorem splitLoop_cover (s : Str) (type : String) (stag etag : Str) (fuel : Nat)
    (e : Int) (r : List Segment)
    (h : splitLoop s type stag etag fuel 0 0 [] = some (e, r)) :
    ∃ c : Nat, c ≤ s.length ∧ (r.map Segment.data).flatten = s.take c ∧
      ((e = (c : Int) ∧ findFrom stag (s.drop c) = none) ∨
        (e = -1 ∧ ∃ i, findFrom stag (s.drop c) = some i ∧
          findFrom etag (s.drop (c + i + stag.length)) = none)) :=
  splitLoop_invariant s type stag etag
    (fun c result => (result.map Segment.data).flatten = s.take c)
    (fun c i j result _ _ _ hP => splitLoop_cover_step s type stag etag c i j result hP)
    fuel 0 [] e r (Nat.zero_le _) (by simp) h

theorem substrFrom_neg_one (s : Str) (h : 0 < s.length) :
    substrFrom s (-1) = s.drop (s.length - 1) := by
  unfold substrFrom
  simp only
  rw [if_pos (by decide)]
  have : (max ((s.length : Int) + -1) 0).toNat = s.length - 1 := by omega
  rw [this]

theorem pushMatch_nonempty (s : Str) (type : String) (stag etag : Str)
    (hs : stag ≠ []) (c i j : Nat) (result : List Segment) (hc : c ≤ s.length)
    (hi : findFrom stag (s.drop c) = some i)
    (hP : ∀ seg ∈ result, seg.data ≠ []) :
    ∀ seg ∈ pushMatch s type stag etag c i j result, seg.data ≠ [] := by
  have hb := findFrom_drop_le s stag c i hc hi
  have hpos : 0 < stag.length := List.length_pos.mpr hs
  intro seg hmem
  unfold pushMatch at hmem
  rw [List.mem_append] at hmem
  rcases hmem with hmem | hmem
  · by_cases h0 : 0 < i
    · rw [if_pos h0, List.mem_append] at hmem
      rcases hmem with hmem | hmem
      · exact hP seg hmem
      · rw [List.mem_singleton] at hmem
        subst hmem
        intro hnil
        have := congrArg List.length hnil
        simp only [List.length_take, List.length_drop, List.length_nil] at this
        omega
    · rw [if_neg h0] at hmem
      exact hP seg hmem
  · rw [List.mem_singleton] at hmem
    subst hmem
    intro hnil
    have := congrArg List.length hnil
    simp only [List.length_take, List.length_drop, List.length_nil] at this
    omega

theorem preprocessIters_of_plain (n : Str) :
    ∀ (segs : List Segment) (st : GenState), (∀ seg ∈ segs, isDiagram seg = false) →
      preprocessIters n segs st = (segs, st) := by
  intro segs
  induction segs with
  | nil => intro st _; rfl
  | cons seg rest ih =>
    intro st h
    have h1 := preprocessIter_of_not_diagram n seg st (h seg (List.mem_cons_self _ _))
    have h2 := ih st (fun x hx => h x (List.mem_cons_of_mem _ hx))
    simp only [preprocessIters, h1, h2]

theorem preprocess_isSome (s n : Str) (st : GenState) : (preprocess s n st).isSome = true := by
  obtain ⟨segs, hsegs⟩ := Option.isSome_iff_exists.mp (splitAll_isSome s)
  unfold preprocess
  rw [hsegs]
  rfl

/-! ## Shape and position of the segments pushed by the loop -/

theorem findFrom_some_prefix (pat : Str) :
    ∀ (l : Str) (i : Nat), findFrom pat l = some i → pat <+: l.drop i := by
  intro l
  induction l with
  | nil =>
    intro i h
    rw [findFrom] at h
    by_cases hp : pat.isPrefixOf [] = true
    · simpa using List.isPrefixOf_iff_prefix.mp hp
    · rw [if_neg hp] at h
      cases h
  | cons c cs ih =>
    intro i h
    rw [findFrom] at h
    by_cases hp : pat.isPrefixOf (c :: cs) = true
    · rw [if_pos hp] at h
      cases h
      exact List.isPrefixOf_iff_prefix.mp hp
    · rw [if_neg hp] at h
      cases hf : findFrom pat cs with
      | none => rw [hf] at h; cases h
      | some j =>
        rw [hf] at h
        cases h
        exact ih j hf

theorem findFrom_some_not_infix (pat : Str) (hpat : pat ≠ []) :
    ∀ (l : Str) (i : Nat), findFrom pat l = some i → ¬ pat <:+: l.take i := by
  intro l
  induction l with
  | nil =>
    intro i _ hinf
    rw [List.take_nil] at hinf
    exact hpat (List.eq_nil_of_infix_nil hinf)
  | cons c cs ih =>
    intro i h hinf
    rw [findFrom] at h
    by_cases hp : pat.isPrefixOf (c :: cs) = true
    · rw [if_pos hp] at h
      cases h
      rw [List.take_zero] at hinf
      exact hpat (List.eq_nil_of_infix_nil hinf)
    · rw [if_neg hp] at h
      cases hf : findFrom pat cs with
      | none => rw [hf] at h; cases h
      | some j =>
        rw [hf] at h
        cases h
        rw [List.take_succ_cons, List.infix_cons_iff] at hinf
        rcases hinf with hpre | hin
        · apply hp
          apply List.isPrefixOf_iff_prefix.mpr
          have : c :: List.take j cs <+: c :: cs :=
            List.cons_prefix_cons.mpr ⟨rfl, List.take_prefix j cs⟩
          exact hpre.trans this
        · exact ih j hf hin

theorem take_of_prefix (pat l : Str) (h : pat <+: l) : l.take pat.length = pat :=
  (List.prefix_iff_eq_take.mp h).symm

/-- The span pushed for a match is the start tag, a body without end tag and
the end tag. -/
theorem match_span_shape (s stag etag : Str) (he : etag ≠ []) (c i j : Nat)
    (hi : findFrom stag (s.drop c) = some i)
    (hj : findFrom etag (s.drop (c + i + stag.length)) = some j) :
    (s.drop (c + i)).take (stag.length + j + etag.length)
        = stag ++ (s.drop (c + i + stag.length)).take j ++ etag ∧
      ¬ etag <:+: (s.drop (c + i + stag.length)).take j := by
  have h1 := findFrom_some_prefix stag _ i hi
  have h2 := findFrom_some_prefix etag _ j hj
  rw [List.drop_drop] at h1 h2
  constructor
  · rw [List.take_add, List.take_add, List.drop_drop, List.drop_drop,
      take_of_prefix stag _ h1]
    have e : c + i + (stag.length + j) = c + i + stag.length + j := by omega
    rw [e, take_of_prefix etag _ h2]
  · exact findFrom_some_not_infix etag he _ j hj

theorem spansIn_mono (s : Str) :
    ∀ (segs : List Segment) (lo hi hi' : Nat), hi ≤ hi' → spansIn s lo hi segs →
      spansIn s lo hi' segs := by
  intro segs
  induction segs with
  | nil => intro lo hi hi' h hs; simp only [spansIn] at hs ⊢; omega
  | cons seg rest ih =>
    intro lo hi hi' h hs
    simp only [spansIn] at hs ⊢
    obtain ⟨a, h1, h2, h3, h4⟩ := hs
    exact ⟨a, h1, h2, h3, ih _ _ _ h h4⟩

theorem spansIn_append (s : Str) (t : String) (d : Str) (a hi' : Nat) :
    ∀ (segs : List Segment) (lo hi : Nat), spansIn s lo hi segs → hi ≤ a →
      a + d.length ≤ s.length → d = (s.drop a).take d.length → a + d.length ≤ hi' →
      spansIn s lo hi' (segs ++ [⟨t, d⟩]) := by
  intro segs
  induction segs with
  | nil =>
    intro lo hi hs h1 h2 h3 h4
    simp only [spansIn] at hs
    simp only [List.nil_append, spansIn]
    exact ⟨a, by omega, h2, h3, h4⟩
  | cons seg rest ih =>
    intro lo hi hs h1 h2 h3 h4
    simp only [spansIn] at hs
    obtain ⟨b, g1, g2, g3, g4⟩ := hs
    simp only [List.cons_append, spansIn]
    exact ⟨b, g1, g2, g3, ih _ _ g4 h1 h2 h3 h4⟩

theorem take_drop_length (s : Str) (a n : Nat) (h : a + n ≤ s.length) :
    ((s.drop a).take n).length = n := by
  simp only [List.length_take, List.length_drop]
  omega

theorem pushMatch_spansIn (s : Str) (type : String) (stag etag : Str) (c i j : Nat)
    (result : List Segment) (hc : c ≤ s.length)
    (hi : findFrom stag (s.drop c) = some i)
    (hj : findFrom etag (s.drop (c + i + stag.length)) = some j)
    (hP : spansIn s 0 c result) :
    spansIn s 0 (c + i + stag.length + j + etag.length)
      (pushMatch s type stag etag c i j result) := by
  have hb := findFrom_drop_le s stag c i hc hi
  have hb2 := findFrom_drop_le s etag (c + i + stag.length) j hb hj
  have hl1 := take_drop_length s c i (by omega)
  have hl2 := take_drop_length s (c + i) (stag.length + j + etag.length) (by omega)
  unfold pushMatch
  by_cases h0 : 0 < i
  · rw [if_pos h0]
    have hmid : spansIn s 0 (c + i) (result ++ [⟨"text", (s.drop c).take i⟩]) :=
      spansIn_append s "text" _ c (c + i) result 0 c hP (le_refl _)
        (by rw [hl1]; omega) (by rw [hl1]) (by rw [hl1])
    exact spansIn_append s type _ (c + i) _ _ 0 (c + i) hmid (le_refl _)
      (by rw [hl2]; omega) (by rw [hl2]) (by rw [hl2]; omega)
  · rw [if_neg h0]
    exact spansIn_append s type _ (c + i) _ _ 0 c hP (by omega)
      (by rw [hl2]; omega) (by rw [hl2]) (by rw [hl2]; omega)

theorem pushMatch_shape (s : Str) (type : String) (stag etag : Str) (he : etag ≠ [])
    (c i j : Nat) (result : List Segment)
    (hi : findFrom stag (s.drop c) = some i)
    (hj : findFrom etag (s.drop (c + i + stag.length)) = some j)
    (hP : ∀ seg ∈ result, seg.type = "text" ∨
      (seg.type = type ∧ ∃ body, seg.data = stag ++ body ++ etag ∧ ¬ etag <:+: body)) :
    ∀ seg ∈ pushMatch s type stag etag c i j result, seg.type = "text" ∨
      (seg.type = type ∧ ∃ body, seg.data = stag ++ body ++ etag ∧ ¬ etag <:+: body) := by
  obtain ⟨hshape, hbody⟩ := match_span_shape s stag etag he c i j hi hj
  intro seg hmem
  unfold pushMatch at hmem
  rw [List.mem_append, List.mem_singleton] at hmem
  rcases hmem with hmem | hmem
  · by_cases h0 : 0 < i
    · rw [if_pos h0, List.mem_append, List.mem_singleton] at hmem
      rcases hmem with hmem | hmem
      · exact hP seg hmem
      · subst hmem
        exact Or.inl rfl
    · rw [if_neg h0] at hmem
      exact hP seg hmem
  · subst hmem
    exact Or.inr ⟨rfl, _, hshape, hbody⟩

theorem split_shape (s : Str) (type : String) (stag etag : Str)
    (hs : stag ≠ []) (he : etag ≠ []) :
    ∃ segs, split s type stag etag = some segs ∧
      (∀ seg ∈ segs, seg.type = "text" ∨
        (seg.type = type ∧ ∃ body, seg.data = stag ++ body ++ etag ∧ ¬ etag <:+: body)) ∧
      spansIn s 0 s.length segs := by
  have hpos : 0 < stag.length := List.length_pos.mpr hs
  have htags : 0 < stag.length + etag.length := by omega
  have hsome := splitLoop_some s type stag etag htags (s.length + 1) 0 0 []
    (le_refl _) (by omega) (by push_cast; omega)
  obtain ⟨⟨e, r⟩, hloop⟩ := Option.isSome_iff_exists.mp hsome
  obtain ⟨c, hc, ⟨hP1, hP2⟩, hcase⟩ := splitLoop_invariant s type stag etag
    (fun c result =>
      (∀ seg ∈ result, seg.type = "text" ∨
        (seg.type = type ∧ ∃ body, seg.data = stag ++ body ++ etag ∧ ¬ etag <:+: body)) ∧
      spansIn s 0 c result)
    (fun c i j result hc hi hj hP =>
      ⟨pushMatch_shape s type stag etag he c i j result hi hj hP.1,
        pushMatch_spansIn s type stag etag c i j result hc hi hj hP.2⟩)
    (s.length + 1) 0 [] e r (Nat.zero_le _)
    ⟨by simp, by simp [spansIn]⟩ hloop
  have htail : ∀ (a : Nat), c ≤ a → a ≤ s.length →
      (∀ seg ∈ r ++ [(⟨"text", s.drop a⟩ : Segment)], seg.type = "text" ∨
        (seg.type = type ∧ ∃ body, seg.data = stag ++ body ++ etag ∧ ¬ etag <:+: body)) ∧
      spansIn s 0 s.length (r ++ [⟨"text", s.drop a⟩]) := by
    intro a hca hal
    constructor
    · intro seg hmem
      rw [List.mem_append, List.mem_singleton] at hmem
      rcases hmem with hmem | hmem
      · exact hP1 seg hmem
      · subst hmem
        exact Or.inl rfl
    · have hl : (s.drop a).length = s.length - a := List.length_drop a s
      exact spansIn_append s "text" _ a s.length r 0 c hP2 hca
        (by rw [hl]; omega) (by rw [List.take_of_length_le (le_refl _)]) (by rw [hl]; omega)
  unfold split
  rw [hloop]
  simp only
  rcases hcase with ⟨hec, _⟩ | ⟨hec, i, hi, _⟩
  · subst hec
    by_cases hlt : (c : Int) + 1 < (s.length : Int)
    · rw [if_pos hlt, substrFrom_nat s c hc]
      exact ⟨_, rfl, htail c (le_refl _) hc⟩
    · rw [if_neg hlt]
      exact ⟨_, rfl, hP1, spansIn_mono s r 0 c s.length hc hP2⟩
  · subst hec
    have hb := findFrom_drop_le s stag c i hc hi
    by_cases hlt : (-1 : Int) + 1 < (s.length : Int)
    · have hlen : 0 < s.length := by omega
      rw [if_pos hlt, substrFrom_neg_one s hlen]
      exact ⟨_, rfl, htail (s.length - 1) (by omega) (by omega)⟩
    · rw [if_neg hlt]
      exact ⟨_, rfl, hP1, spansIn_mono s r 0 c s.length hc hP2⟩

/-! ## The renderer -/

theorem foldl_if_append {α : Type} (p : α → Bool) (f : α → Str) :
    ∀ (l : List α) (acc : Str),
      l.foldl (fun result x => if p x then result ++ f x else result) acc
        = acc ++ ((l.filter p).map f).flatten := by
  intro l
  induction l with
  | nil => intro acc; simp
  | cons a l ih =>
    intro acc
    rw [List.foldl_cons, ih]
    cases hp : p a with
    | true => simp [List.filter_cons, hp]
    | false => simp [List.filter_cons, hp]

theorem genFunctionsIndex_of_some (localeCompare : Str → Str → Int) (cls : Entity)
    (ms : List Member) (hm : cls.methods = some ms) :
    genFunctionsIndex localeCompare cls =
      (functionsIndexHead cls.name
          ++ (((sortByName localeCompare ms).filter (fun m => !isPrivate m)).map
                (functionsIndexRow cls.name)).flatten,
        { cls with methods := some (sortByName localeCompare ms) }) := by
  unfold genFunctionsIndex
  rw [hm]
  simp only
  rw [foldl_if_append (fun m => !isPrivate m) (functionsIndexRow cls.name)]

theorem genPropertiesIndex_of_some (localeCompare : Str → Str → Int) (cls : Entity)
    (ps : List Member) (hp : cls.properties = some ps) :
    genPropertiesIndex localeCompare cls =
      (propertiesIndexHead cls.name
          ++ (((sortByName localeCompare ps).filter (fun m => !isPrivate m)).map
                (propertiesIndexRow cls.name)).flatten,
        { cls with properties := some (sortByName localeCompare ps) }) := by
  unfold genPropertiesIndex
  rw [hp]
  simp only
  rw [foldl_if_append (fun m => !isPrivate m) (propertiesIndexRow cls.name)]

theorem genFunctionsDetail_of_some (cls : Entity) (ms : List Member)
    (hm : cls.methods = some ms) :
    genFunctionsDetail cls
      = ((ms.filter (fun m => !isPrivate m)).map (genOneFunc cls)).flatten := by
  unfold genFunctionsDetail
  rw [hm]
  simp only
  rw [foldl_if_append (fun m => !isPrivate m) (genOneFunc cls), List.nil_append]

theorem genPropertiesDetail_of_some (cls : Entity) (ps : List Member)
    (hp : cls.properties = some ps) :
    genPropertiesDetail cls
      = ((ps.filter (fun m => !isPrivate m)).map (genOneProperty cls)).flatten := by
  unfold genPropertiesDetail
  rw [hp]
  simp only
  rw [foldl_if_append (fun m => !isPrivate m) (genOneProperty cls), List.nil_append]

theorem writeResult_isSome (clsName result : Str) (st : GenState) :
    (writeResult clsName result st).isSome = true := by
  obtain ⟨⟨str, st'⟩, h⟩ := Option.isSome_iff_exists.mp (preprocess_isSome result clsName st)
  unfold writeResult
  simp only [h]
  rfl

/-- The document `genOneClass` writes, with the two arrays already sorted. -/
theorem genOneClass_of_some (localeCompare : Str → Str → Int) (cls : Entity)
    (ms ps : List Member) (hm : cls.methods = some ms) (hp : cls.properties = some ps)
    (st : GenState) :
    genOneClass localeCompare cls st =
      (writeResult cls.name
        (classOverview cls
          ++ (functionsIndexHead cls.name
              ++ (((sortByName localeCompare ms).filter (fun m => !isPrivate m)).map
                    (functionsIndexRow cls.name)).flatten)
          ++ (propertiesIndexHead cls.name
              ++ (((sortByName localeCompare ps).filter (fun m => !isPrivate m)).map
                    (propertiesIndexRow cls.name)).flatten)
          ++ genConsts cls ++ genEvents cls
          ++ (((sortByName localeCompare ms).filter (fun m => !isPrivate m)).map
                (genOneFunc cls)).flatten
          ++ (((sortByName localeCompare ps).filter (fun m => !isPrivate m)).map
                (genOneProperty cls)).flatten)
        st).map
        (fun st' =>
          ({ cls with methods := some (sortByName localeCompare ms),
                      properties := some (sortByName localeCompare ps) }, st')) := by
  unfold genOneClass
  simp only
  rw [genFunctionsIndex_of_some localeCompare cls ms hm]
  simp only
  rw [genPropertiesIndex_of_some localeCompare
    { cls with methods := some (sortByName localeCompare ms) } ps hp]
  simp only
  rw [genFunctionsDetail_of_some _ (sortByName localeCompare ms) rfl,
    genPropertiesDetail_of_some _ (sortByName localeCompare ps) rfl]
  rfl

theorem compareCodeUnits_le_iff (a b : Str) : compareCodeUnits a b ≤ 0 ↔ a ≤ b := by
  unfold compareCodeUnits
  by_cases h1 : a ≤ b
  · by_cases h2 : b ≤ a
    · simp [h1, h2]
    · simp [h1, h2]
  · simp [h1]

theorem compareCodeUnits_total (a b : Str) :
    compareCodeUnits a b ≤ 0 ∨ compareCodeUnits b a ≤ 0 := by
  rw [compareCodeUnits_le_iff, compareCodeUnits_le_iff]
  exact le_total a b

theorem compareCodeUnits_trans (a b c : Str) (h1 : compareCodeUnits a b ≤ 0)
    (h2 : compareCodeUnits b c ≤ 0) : compareCodeUnits a c ≤ 0 := by
  rw [compareCodeUnits_le_iff] at h1 h2 ⊢
  exact le_trans h1 h2

/-! ## The runtime comparison is a consistent order -/

theorem lex_nat_trichotomy (a b : List Nat) :
    List.Lex (· < ·) a b ∨ a = b ∨ List.Lex (· < ·) b a :=
  IsTrichotomous.trichotomous a b

theorem lex_nat_irrefl (a : List Nat) : ¬ List.Lex (· < ·) a a :=
  IsIrrefl.irrefl a

theorem lex_nat_trans (a b c : List Nat) (h1 : List.Lex (· < ·) a b)
    (h2 : List.Lex (· < ·) b c) : List.Lex (· < ·) a c :=
  IsTrans.trans a b c h1 h2

theorem localeCompareRoot_le_iff (a b : Str) : localeCompareRoot a b ≤ 0 ↔ collationLe a b := by
  unfold localeCompareRoot collationLe
  by_cases h1 : List.Lex (· < ·) (a.map primaryWeight) (b.map primaryWeight)
  · rw [if_pos h1]
    exact ⟨fun _ => Or.inl h1, fun _ => by decide⟩
  · rw [if_neg h1]
    by_cases h2 : List.Lex (· < ·) (b.map primaryWeight) (a.map primaryWeight)
    · rw [if_pos h2]
      constructor
      · intro h; exact absurd h (by decide)
      · rintro (h | ⟨he, _⟩)
        · exact absurd h h1
        · rw [he] at h2
          exact absurd h2 (lex_nat_irrefl _)
    · rw [if_neg h2]
      have hp : a.map primaryWeight = b.map primaryWeight := by
        rcases lex_nat_trichotomy (a.map primaryWeight) (b.map primaryWeight) with h | h | h
        · exact absurd h h1
        · exact h
        · exact absurd h h2
      by_cases h3 : List.Lex (· < ·) (a.map caseWeight) (b.map caseWeight)
      · rw [if_pos h3]
        exact ⟨fun _ => Or.inr ⟨hp, Or.inl h3⟩, fun _ => by decide⟩
      · rw [if_neg h3]
        by_cases h4 : List.Lex (· < ·) (b.map caseWeight) (a.map caseWeight)
        · rw [if_pos h4]
          constructor
          · intro h; exact absurd h (by decide)
          · rintro (h | ⟨_, h | h⟩)
            · exact absurd h h1
            · exact absurd h h3
            · rw [h] at h4
              exact absurd h4 (lex_nat_irrefl _)
        · rw [if_neg h4]
          have ht : a.map caseWeight = b.map caseWeight := by
            rcases lex_nat_trichotomy (a.map caseWeight) (b.map caseWeight) with h | h | h
            · exact absurd h h3
            · exact h
            · exact absurd h h4
          exact ⟨fun _ => Or.inr ⟨hp, Or.inr ht⟩, fun _ => le_refl _⟩

theorem collationLe_total (a b : Str) : collationLe a b ∨ collationLe b a := by
  unfold collationLe
  rcases lex_nat_trichotomy (a.map primaryWeight) (b.map primaryWeight) with h | h | h
  · exact Or.inl (Or.inl h)
  · rcases lex_nat_trichotomy (a.map caseWeight) (b.map caseWeight) with g | g | g
    · exact Or.inl (Or.inr ⟨h, Or.inl g⟩)
    · exact Or.inl (Or.inr ⟨h, Or.inr g⟩)
    · exact Or.inr (Or.inr ⟨h.symm, Or.inl g⟩)
  · exact Or.inr (Or.inl h)

theorem collationLe_trans (a b c : Str) (h1 : collationLe a b) (h2 : collationLe b c) :
    collationLe a c := by
  unfold collationLe at h1 h2 ⊢
  rcases h1 with h1 | ⟨e1, t1⟩
  · rcases h2 with h2 | ⟨e2, _⟩
    · exact Or.inl (lex_nat_trans _ _ _ h1 h2)
    · rw [e2] at h1
      exact Or.inl h1
  · rcases h2 with h2 | ⟨e2, t2⟩
    · rw [← e1] at h2
      exact Or.inl h2
    · refine Or.inr ⟨e1.trans e2, ?_⟩
      rcases t1 with t1 | t1
      · rcases t2 with t2 | t2
        · exact Or.inl (lex_nat_trans _ _ _ t1 t2)
        · rw [t2] at t1
          exact Or.inl t1
      · rcases t2 with t2 | t2
        · rw [← t1] at t2
          exact Or.inl t2
        · exact Or.inr (t1.trans t2)

theorem sortByName_root_sorted (ms : List Member) :
    (sortByName localeCompareRoot ms).Sorted (fun a b => collationLe a.name b.name) := by
  haveI : IsTotal Member (fun a b => localeCompareRoot a.name b.name ≤ 0) :=
    ⟨fun a b => by
      rw [localeCompareRoot_le_iff, localeCompareRoot_le_iff]
      exact collationLe_total a.name b.name⟩
  haveI : IsTrans Member (fun a b => localeCompareRoot a.name b.name ≤ 0) :=
    ⟨fun a b c h1 h2 => by
      rw [localeCompareRoot_le_iff] at h1 h2 ⊢
      exact collationLe_trans a.name b.name c.name h1 h2⟩
  have h := List.sorted_insertionSort (fun a b : Member => localeCompareRoot a.name b.name ≤ 0) ms
  exact List.Pairwise.imp (fun {a b} hab => (localeCompareRoot_le_iff a.name b.name).mp hab) h

/-! ## The renderer on every entity -/

theorem notPrivate_eq :
    (fun m : Member => !isPrivate m)
      = (fun m : Member => decide (m.annotation.map Annotation.private_ ≠ some true)) := by
  funext m
  unfold isPrivate
  cases m.annotation with
  | none => simp
  | some a => cases h : a.private_ <;> simp [h]

theorem entity_with_methods_self (cls : Entity) (h : cls.methods = none) (f : List Member → List Member) :
    ({ cls with methods := cls.methods.map f } : Entity) = cls := by
  obtain ⟨n, t, d, p, ms, ps, cs, es⟩ := cls
  simp only at h
  subst h
  rfl

theorem entity_with_properties_self (cls : Entity) (h : cls.properties = none)
    (f : List Member → List Member) :
    ({ cls with properties := cls.properties.map f } : Entity) = cls := by
  obtain ⟨n, t, d, p, ms, ps, cs, es⟩ := cls
  simp only at h
  subst h
  rfl

theorem genFunctionsIndex_eq (localeCompare : Str → Str → Int) (cls : Entity) :
    genFunctionsIndex localeCompare cls =
      ((if cls.methods.isSome then
          functionsIndexHead cls.name
            ++ (((sortByName localeCompare (cls.methods.getD [])).filter
                  (fun m => decide (m.annotation.map Annotation.private_ ≠ some true))).map
                  (functionsIndexRow cls.name)).flatten
        else []),
        { cls with methods := cls.methods.map (sortByName localeCompare) }) := by
  cases hm : cls.methods with
  | none =>
    have h := entity_with_methods_self cls hm (sortByName localeCompare)
    rw [hm] at h
    unfold genFunctionsIndex
    rw [hm]
    simp only [Option.isSome_none, Bool.false_eq_true, if_false, Option.map_none'] at h ⊢
    rw [h]
  | some ms =>
    rw [genFunctionsIndex_of_some localeCompare cls ms hm, notPrivate_eq]
    simp only [Option.isSome_some, if_true, Option.getD_some, Option.map_some']

theorem genPropertiesIndex_eq (localeCompare : Str → Str → Int) (cls : Entity) :
    genPropertiesIndex localeCompare cls =
      ((if cls.properties.isSome then
          propertiesIndexHead cls.name
            ++ (((sortByName localeCompare (cls.properties.getD [])).filter
                  (fun m => decide (m.annotation.map Annotation.private_ ≠ some true))).map
                  (propertiesIndexRow cls.name)).flatten
        else []),
        { cls with properties := cls.properties.map (sortByName localeCompare) }) := by
  cases hp : cls.properties with
  | none =>
    have h := entity_with_properties_self cls hp (sortByName localeCompare)
    rw [hp] at h
    unfold genPropertiesIndex
    rw [hp]
    simp only [Option.isSome_none, Bool.false_eq_true, if_false, Option.map_none'] at h ⊢
    rw [h]
  | some ps =>
    rw [genPropertiesIndex_of_some localeCompare cls ps hp, notPrivate_eq]
    simp only [Option.isSome_some, if_true, Option.getD_some, Option.map_some']

theorem genFunctionsDetail_eq (cls : Entity) :
    genFunctionsDetail cls
      = (((cls.methods.getD []).filter
            (fun m => decide (m.annotation.map Annotation.private_ ≠ some true))).map
            (genOneFunc cls)).flatten := by
  cases hm : cls.methods with
  | none =>
    unfold genFunctionsDetail
    rw [hm]
    rfl
  | some ms =>
    rw [genFunctionsDetail_of_some cls ms hm, notPrivate_eq]
    rfl

theorem genPropertiesDetail_eq (cls : Entity) :
    genPropertiesDetail cls
      = (((cls.properties.getD []).filter
            (fun m => decide (m.annotation.map Annotation.private_ ≠ some true))).map
            (genOneProperty cls)).flatten := by
  cases hp : cls.properties with
  | none =>
    unfold genPropertiesDetail
    rw [hp]
    rfl
  | some ps =>
    rw [genPropertiesDetail_of_some cls ps hp, notPrivate_eq]
    rfl

/-- The document `genOneClass` writes and the entity it leaves, for every
entity. -/
theorem genOneClass_eq (localeCompare : Str → Str → Int) (cls : Entity) (st : GenState) :
    genOneClass localeCompare cls st =
      (writeResult cls.name
        (classOverview cls
          ++ (if cls.methods.isSome then
                functionsIndexHead cls.name
                  ++ (((sortByName localeCompare (cls.methods.getD [])).filter
                        (fun m => decide (m.annotation.map Annotation.private_ ≠ some true))).map
                        (functionsIndexRow cls.name)).flatten
              else [])
          ++ (if cls.properties.isSome then
                propertiesIndexHead cls.name
                  ++ (((sortByName localeCompare (cls.properties.getD [])).filter
                        (fun m => decide (m.annotation.map Annotation.private_ ≠ some true))).map
                        (propertiesIndexRow cls.name)).flatten
              else [])
          ++ genConsts cls ++ genEvents cls
          ++ (((sortByName localeCompare (cls.methods.getD [])).filter
                (fun m => decide (m.annotation.map Annotation.private_ ≠ some true))).map
                (genOneFunc cls)).flatten
          ++ (((sortByName localeCompare (cls.properties.getD [])).filter
                (fun m => decide (m.annotation.map Annotation.private_ ≠ some true))).map
                (genOneProperty cls)).flatten)
        st).map
        (fun st' =>
          ({ cls with methods := cls.methods.map (sortByName localeCompare),
                      properties := cls.properties.map (sortByName localeCompare) }, st')) := by
  unfold genOneClass
  simp only
  rw [genFunctionsIndex_eq localeCompare cls]
  simp only
  rw [genPropertiesIndex_eq localeCompare
    { cls with methods := cls.methods.map (sortByName localeCompare) }]
  simp only
  rw [genFunctionsDetail_eq, genPropertiesDetail_eq]
  cases hm : cls.methods <;> cases hp : cls.properties <;> rfl

/-! ## The properties of the specification, settled on the code -/

/-- C1, round trip of `splitAll`, evaluated at the input `see` followed by the
fenced block `f()` and a full stop. The scan meets no unterminated start tag,
yet `splitAll` returns only the text `see ` and the code segment: the final
full stop is one code unit of trailing text, the test `(end + 1) < str.length`
of line 146 rejects it, and the concatenation of the segments is not the
input. -/
theorem splitAll_round_trip_loses_last_unit :
    splitAll "see ```f()```.".toList
        = some [⟨"text", "see ".toList⟩, ⟨"code", "```f()```".toList⟩] ∧
      (([⟨"text", "see ".toList⟩, ⟨"code", "```f()```".toList⟩] : List Segment).map
          Segment.data).flatten ≠ "see ```f()```.".toList := by
  decide

/-- C2 as stated fails on the empty input: it has zero matches and `split`
returns no segment at all, not one empty `text` segment. -/
theorem split_zero_matches_empty_input :
    split [] "code" "```".toList "```".toList = some [] ∧
      split [] "code" "```".toList "```".toList ≠ some [⟨"text", []⟩] := by
  decide

/-- C2, amended: when `str` contains no start tag, `split` returns exactly one
segment, of type `text`, holding the whole of `str`, provided `str` has at
least two code units; on the empty string it returns no segment. -/
theorem split_zero_matches (str : Str) (type : String) (stag etag : Str)
    (h : ¬ stag <:+: str) :
    (2 ≤ str.length → split str type stag etag = some [⟨"text", str⟩]) ∧
      (str = [] → split str type stag etag = some []) := by
  have hidx : indexOf str stag 0 = -1 := by
    apply indexOf_eq_neg_one
    simpa using h
  have hloop : splitLoop str type stag etag (str.length + 1) 0 0 [] = some (0, []) := by
    rw [splitLoop]
    simp only [hidx]
    rw [if_pos (by decide)]
  constructor
  · intro hlen
    unfold split
    rw [hloop]
    simp only
    have : (0 : Int) + 1 < (str.length : Int) := by omega
    rw [if_pos this, substrFrom_zero]
    rfl
  · intro hnil
    subst hnil
    unfold split
    rw [hloop]
    rfl

/-- Witness of `split_zero_matches`: the two-unit string `ab` contains no
fence and comes back as one `text` segment. -/
theorem split_zero_matches_witness :
    (¬ "```".toList <:+: "ab".toList) ∧
      split "ab".toList "code" "```".toList "```".toList = some [⟨"text", "ab".toList⟩] :=
  ⟨by decide,
   (split_zero_matches "ab".toList "code" "```".toList "```".toList (by decide)).1 (by decide)⟩

/-- C3, unterminated start tag after a match, evaluated at the input made of
the fenced block `a`, the text ` x ` and an unclosed fence followed by `y`.
The failed search for the end tag stores `-1` in `end` (line 125) before the
`break`, so the segment pushed after the loop is `str.substr(-1)`, the last
code unit `y`, and not the text from the end of the last match. -/
theorem split_unterminated_keeps_last_unit_only :
    split "```a``` x ```y".toList "code" "```".toList "```".toList
      = some [⟨"code", "```a```".toList⟩, ⟨"text", "y".toList⟩] := by
  decide

/-- C4, fenced-code segmentation, evaluated with an empty `a`, the body `code`
and the one-unit text `x` after the block: `splitAll` returns the code segment
alone, the text `x` is not returned. -/
theorem splitAll_fenced_drops_one_unit_tail :
    splitAll "```code```x".toList = some [⟨"code", "```code```".toList⟩] := by
  decide

/-- C5, raw diagram blocks, evaluated at the input of the self-test (line
447): `splitAll` applies the code-fence rule only and returns the whole input
as one `text` segment, with no `graphviz` segment. -/
theorem splitAll_raw_digraph_is_text :
    splitAll "123\ndigraph G \x7b\na\n\x7d\nabc".toList
      = some [⟨"text", "123\ndigraph G \x7b\na\n\x7d\nabc".toList⟩] := by
  decide

/-- C6, underscore escaping in `preprocess`, evaluated at the input of the
self-test (line 486): the text `a_t` is returned as it is, the underscore is
not escaped. -/
theorem preprocess_keeps_underscore :
    preprocess "a_t".toList "test".toList ⟨0, []⟩ = some ("a_t".toList, ⟨0, []⟩) := by
  decide

/-- C7, raw diagram blocks in `preprocess`, evaluated at the two inputs of the
self-test (lines 489 and 492): both strings are returned unchanged, no side
file is written and the counter stays 0. -/
theorem preprocess_raw_diagrams_unchanged :
    preprocess "digraph G \x7b\na\n\x7d\n".toList "test".toList ⟨0, []⟩
        = some ("digraph G \x7b\na\n\x7d\n".toList, ⟨0, []⟩) ∧
      preprocess "@startumluml@enduml".toList "test".toList ⟨0, []⟩
        = some ("@startumluml@enduml".toList, ⟨0, []⟩) := by
  decide

/-- C8, counter monotonicity: `preprocess` run with `imageIndex = 0` returns,
and with `segs` the segments of `splitAll`, the counter ends at the number of
diagrams among them; the side files written are, in order, those of the
diagrams numbered 0, 1, 2, ... in document order whatever their kind; and the
output is the concatenation of the segments in which every diagram is replaced
by the image reference whose index is the number of diagrams before it. -/
theorem preprocess_counter (s n : Str) (fs : List (Str × Str)) :
    ∃ segs out st, splitAll s = some segs ∧ preprocess s n ⟨0, fs⟩ = some (out, st) ∧
      st.imageIndex = (segs.filter isDiagram).length ∧
      st.files.map Prod.fst
        = fs.map Prod.fst ++
            (segs.filter isDiagram).enum.map (fun p => sideFileName n p.1 p.2) ∧
      out = (segs.enum.map (fun p =>
              if isDiagram p.2 then
                imageRefFor n ((segs.take p.1).filter isDiagram).length
              else p.2.data)).flatten := by
  obtain ⟨segs, hsegs⟩ := Option.isSome_iff_exists.mp (splitAll_isSome s)
  obtain ⟨h1, h2⟩ := preprocessIters_state n segs 0 fs
  have h3 := preprocessIters_data n segs 0 fs
  refine ⟨segs,
    (preprocessIters n segs ⟨0, fs⟩).1.foldl (fun result iter => result ++ iter.data) [],
    (preprocessIters n segs ⟨0, fs⟩).2, hsegs, ?_, ?_, ?_, ?_⟩
  · unfold preprocess
    rw [hsegs]
  · simpa using h1
  · exact h2
  · rw [foldl_data_eq, h3]
    simp [List.enum]

/-- C9 as stated fails for a body that holds no fence but ends in backticks:
with the body made of two backticks the block is closed by the first three of
the five trailing backticks, so the side file holds an empty graph and the
two backticks left over follow the image reference in the output. -/
theorem preprocess_graphviz_fence_backtick_body :
    preprocess ("```graphviz".toList ++ "``".toList ++ "```".toList) "n".toList ⟨0, []⟩
        = some ("![image](images/n_0.png)\n``".toList,
            ⟨1, [("dots/n_0".toList, "digraph G \x7b\x7d".toList)]⟩) ∧
      preprocess ("```graphviz".toList ++ "``".toList ++ "```".toList) "n".toList ⟨0, []⟩
        ≠ some ("![image](images/n_0.png)\n".toList,
            ⟨1, [("dots/n_0".toList, "digraph G \x7b``\x7d".toList)]⟩) := by
  decide

/-- C9, amended: for every entity name `n`, counter value `k` and body that
contains no fence and does not end with a backtick, `preprocess` of the
graphviz block around the body writes, after the files already written,
`dots/n_k` holding `digraph G` and an opening brace, the body with every
`[default_style]` replaced by the default-style block, and a closing brace;
it returns exactly the image reference `images/n_k.png` and advances the
counter by one. -/
theorem preprocess_graphviz_fence (n body : Str) (k : Nat) (fs : List (Str × Str))
    (hbody : ¬ "```".toList <:+: body) (hlast : ¬ "`".toList <:+ body) :
    preprocess ("```graphviz".toList ++ body ++ "```".toList) n ⟨k, fs⟩ =
      some ("![image](images/".toList ++ n ++ "_".toList ++ Nat.toDigits 10 k ++ ".png)\n".toList,
        ⟨k + 1, fs ++ [("dots/".toList ++ n ++ "_".toList ++ Nat.toDigits 10 k,
          "digraph G \x7b".toList
            ++ replaceAll "[default_style]".toList graphviz_default_style body
            ++ "\x7d".toList)]⟩) := by
  have e3 : "```".toList = [Char.ofNat 96, Char.ofNat 96, Char.ofNat 96] := rfl
  have e1 : "`".toList = [Char.ofNat 96] := rfl
  have eg : "```graphviz".toList
      = [Char.ofNat 96, Char.ofNat 96, Char.ofNat 96] ++ "graphviz".toList := rfl
  rw [e3] at hbody
  rw [e1] at hlast
  -- the input is one block: the fence, `graphviz` and the body, the fence
  have hstr : "```graphviz".toList ++ body ++ "```".toList
      = [Char.ofNat 96, Char.ofNat 96, Char.ofNat 96]
          ++ (("graphviz".toList ++ body) ++ [Char.ofNat 96, Char.ofNat 96, Char.ofNat 96]) := by
    rw [eg, e3]
    simp only [List.append_assoc]
  have hmid := findFrom_append_triple (Char.ofNat 96) ("graphviz".toList ++ body)
    (fun h => hbody (triple_infix_of_append_left _ _ _ (by decide) h))
    (fun h => hlast (singleton_suffix_of_append_left _ _ _ (by decide) h))
  have hsplit := split_single "code" [Char.ofNat 96, Char.ofNat 96, Char.ofNat 96]
    [Char.ofNat 96, Char.ofNat 96, Char.ofNat 96] ("graphviz".toList ++ body) (by simp) hmid
  have hall : splitAll ("```graphviz".toList ++ body ++ "```".toList)
      = some [⟨"code", "```graphviz".toList ++ body ++ "```".toList⟩] := by
    rw [splitAll_eq_split, hstr]
    exact hsplit
  -- the block holds the graphviz marker
  have hmark : indexOf ("```graphviz".toList ++ body ++ "```".toList) "```graphviz".toList 0 ≥ 0 := by
    apply (indexOf_zero_nonneg_iff _ _).mpr
    rw [List.append_assoc]
    exact (List.prefix_append _ _).isInfix
  -- the two replacements of lines 207 and 208
  have hr1 : replaceFirst "```graphviz".toList "digraph G \x7b".toList
      ("```graphviz".toList ++ body ++ "```".toList)
      = "digraph G \x7b".toList ++ (body ++ "```".toList) := by
    rw [List.append_assoc]
    exact replaceFirst_of_prefix _ _ _
  have hr2 : replaceFirst "```".toList "\x7d".toList
      ("digraph G \x7b".toList ++ (body ++ "```".toList))
      = ("digraph G \x7b".toList ++ body) ++ "\x7d".toList := by
    rw [e3, ← List.append_assoc]
    exact replaceFirst_append_triple (Char.ofNat 96) _ _
      (fun h => hbody (triple_infix_of_append_left _ _ _ (by decide) h))
      (fun h => hlast (singleton_suffix_of_append_left _ _ _ (by decide) h))
  -- the replacement of line 184 only touches the body
  have hq : ∀ b : Str, ("[default_style]".toList).isPrefixOf (b ++ "\x7d".toList)
      = ("[default_style]".toList).isPrefixOf b :=
    isPrefixOf_append_singleton "[default_style]".toList ']' (Char.ofNat 125) rfl (by decide)
  have hr3 : replaceAll "[default_style]".toList graphviz_default_style
      (("digraph G \x7b".toList ++ body) ++ "\x7d".toList)
      = "digraph G \x7b".toList
          ++ replaceAll "[default_style]".toList graphviz_default_style body
          ++ "\x7d".toList := by
    unfold replaceAll
    rw [List.append_assoc]
    have hl := replaceAllAux_append_left '[' "default_style]".toList graphviz_default_style
      "digraph G \x7b".toList (body ++ "\x7d".toList) (by decide)
    have hrr := replaceAllAux_append_right "[default_style]".toList graphviz_default_style
      "\x7d".toList hq body 0 (Nat.zero_le _)
    have hend : replaceAllAux "[default_style]".toList graphviz_default_style 0 "\x7d".toList
        = "\x7d".toList := rfl
    rw [hend] at hrr
    calc replaceAllAux "[default_style]".toList graphviz_default_style 0
            ("digraph G \x7b".toList ++ (body ++ "\x7d".toList))
        = "digraph G \x7b".toList
            ++ replaceAllAux "[default_style]".toList graphviz_default_style 0
                (body ++ "\x7d".toList) := hl
      _ = "digraph G \x7b".toList
            ++ (replaceAllAux "[default_style]".toList graphviz_default_style 0 body
                ++ "\x7d".toList) := by rw [hrr]
      _ = _ := by rw [List.append_assoc]
  unfold preprocess
  rw [hall]
  simp only [preprocessIters, preprocessIter, if_true, hmark, hr1, hr2, preprocessGraphviz, hr3]
  simp only [imageRef, imageName, List.foldl, List.nil_append, List.append_assoc]

/-- Witness of `preprocess_graphviz_fence`: the inheritance block that
`genOneClass` builds for the class `button` with parent `widget`, at counter 0. -/
theorem preprocess_graphviz_fence_witness :
    (¬ "```".toList <:+: "\n[default_style]\nbutton -> widget[arrowhead = \"empty\"]".toList) ∧
    (¬ "`".toList <:+ "\n[default_style]\nbutton -> widget[arrowhead = \"empty\"]".toList) ∧
    preprocess ("```graphviz".toList
        ++ "\n[default_style]\nbutton -> widget[arrowhead = \"empty\"]".toList
        ++ "```".toList) "button".toList ⟨0, []⟩ =
      some ("![image](images/".toList ++ "button".toList ++ "_".toList ++ Nat.toDigits 10 0
          ++ ".png)\n".toList,
        ⟨0 + 1, [] ++ [("dots/".toList ++ "button".toList ++ "_".toList ++ Nat.toDigits 10 0,
          "digraph G \x7b".toList
            ++ replaceAll "[default_style]".toList graphviz_default_style
                "\n[default_style]\nbutton -> widget[arrowhead = \"empty\"]".toList
            ++ "\x7d".toList)]⟩) :=
  ⟨by decide, by decide,
   preprocess_graphviz_fence "button".toList
     "\n[default_style]\nbutton -> widget[arrowhead = \"empty\"]".toList 0 [] (by decide)
     (by decide)⟩

/-- C10 as stated fails on every text that holds an underscore: escaping the
escaped text `a\_t` escapes its underscore again. -/
theorem encodeStr_twice_differs :
    encodeStr (encodeStr "a_t".toList) = "a\\\\_t".toList ∧
      encodeStr (encodeStr "a_t".toList) ≠ encodeStr "a_t".toList := by
  decide

/-- C10, amended: escaping is a no-op exactly on the texts that hold no
underscore. `encodeStr` returns its argument unchanged if and only if the
argument has no underscore, and escaping an escaped text changes nothing if
and only if the text had no underscore to begin with. -/
theorem encodeStr_idempotent_iff (s : Str) :
    (encodeStr s = s ↔ '_' ∉ s) ∧ (encodeStr (encodeStr s) = encodeStr s ↔ '_' ∉ s) := by
  have key : ∀ t : Str, encodeStr t = t ↔ '_' ∉ t := by
    intro t
    constructor
    · intro h
      have hl := length_encodeStr t
      rw [h] at hl
      exact List.count_eq_zero.mp (by omega)
    · exact encodeStr_eq_self t
  refine ⟨key s, ?_⟩
  constructor
  · intro h
    have hmem := (key (encodeStr s)).mp h
    have hc : (encodeStr s).count '_' = 0 := List.count_eq_zero.mpr hmem
    rw [count_encodeStr] at hc
    exact List.count_eq_zero.mp hc
  · intro h
    rw [encodeStr_eq_self s h, encodeStr_eq_self s h]

/-- C11, ordinary text and ordinary code fences are untouched: when no code
segment of `splitAll` contains the graphviz marker or the uml marker,
`preprocess` returns the concatenation, in order, of the data of the segments
of `splitAll`, and the generator state (the counter and the files written) is
the one it started from. Whatever a `text` segment contains, the callback of
`preprocess` leaves it and the state as they are. -/
theorem preprocess_plain (s n : Str) (st : GenState)
    (hplain : ∀ segs, splitAll s = some segs → ∀ seg ∈ segs, isDiagram seg = false) :
    ∃ segs, splitAll s = some segs ∧
      preprocess s n st = some ((segs.map Segment.data).flatten, st) ∧
      ∀ (iter : Segment) (st' : GenState), iter.type = "text" →
        preprocessIter n iter st' = (iter, st') := by
  obtain ⟨segs, hsegs⟩ := Option.isSome_iff_exists.mp (splitAll_isSome s)
  refine ⟨segs, hsegs, ?_, ?_⟩
  · unfold preprocess
    rw [hsegs]
    simp only [preprocessIters_of_plain n segs st (hplain segs hsegs), foldl_data_eq,
      List.nil_append]
  · intro iter st' ht
    have hne : ¬ iter.type = "code" := by rw [ht]; decide
    unfold preprocessIter
    rw [if_neg hne]

/-- Witness of `preprocess_plain`: a text with an ordinary code fence and an
underscore. -/
theorem preprocess_plain_witness :
    ∃ segs, splitAll "call ```f_1()``` now".toList = some segs ∧
      preprocess "call ```f_1()``` now".toList "cls".toList ⟨3, []⟩
        = some ((segs.map Segment.data).flatten, ⟨3, []⟩) ∧
      ∀ (iter : Segment) (st' : GenState), iter.type = "text" →
        preprocessIter "cls".toList iter st' = (iter, st') :=
  preprocess_plain "call ```f_1()``` now".toList "cls".toList ⟨3, []⟩
    (by
      intro segs h
      have hs : splitAll "call ```f_1()``` now".toList
          = some [⟨"text", "call ".toList⟩, ⟨"code", "```f_1()```".toList⟩,
              ⟨"text", " now".toList⟩] := by decide
      rw [hs] at h
      cases h
      decide)

/-- C16, trailing-text boundary rule: when the scan of `split` ends at a
failed search for the start tag with the cursor at `c`, then `c` is the end
of the last match (or 0), the segments pushed so far are the input up to `c`,
no start tag occurs from `c` on, and `split` appends the `text` segment
holding the input from `c` to its end if and only if `c + 1` is less than the
length of the input. A trailing text of exactly one code unit is not
emitted. -/
theorem split_trailing_rule (s : Str) (type : String) (stag etag : Str) (c : Nat)
    (r : List Segment)
    (hexit : splitLoop s type stag etag (s.length + 1) 0 0 [] = some ((c : Int), r)) :
    c ≤ s.length ∧ ¬ stag <:+: s.drop c ∧ (r.map Segment.data).flatten = s.take c ∧
      split s type stag etag
        = some (if c + 1 < s.length then r ++ [⟨"text", s.drop c⟩] else r) ∧
      (c + 1 = s.length → split s type stag etag = some r) := by
  obtain ⟨c', hc', hcov, hcase⟩ := splitLoop_cover s type stag etag _ _ _ hexit
  have hcc : c' = c := by
    rcases hcase with ⟨he, _⟩ | ⟨he, _⟩
    · omega
    · omega
  subst hcc
  have hnone : findFrom stag (s.drop c') = none := by
    rcases hcase with ⟨_, h⟩ | ⟨he, _⟩
    · exact h
    · omega
  have hsplit : split s type stag etag
      = some (if c' + 1 < s.length then r ++ [⟨"text", s.drop c'⟩] else r) := by
    unfold split
    rw [hexit]
    simp only
    by_cases hlt : c' + 1 < s.length
    · have : (c' : Int) + 1 < (s.length : Int) := by omega
      rw [if_pos this, if_pos hlt, substrFrom_nat s c' hc']
    · have : ¬ (c' : Int) + 1 < (s.length : Int) := by omega
      rw [if_neg this, if_neg hlt]
  refine ⟨hc', (findFrom_eq_none_iff stag _).mp hnone, hcov, hsplit, ?_⟩
  intro h1
  rw [hsplit, if_neg (by omega)]

/-- Witness of `split_trailing_rule`: after the fenced block `code` the scan
ends with the cursor at 10 and one code unit left. -/
theorem split_trailing_rule_witness :
    (10 : Nat) ≤ "```code```x".toList.length ∧
      ¬ "```".toList <:+: "```code```x".toList.drop 10 ∧
      (([⟨"code", "```code```".toList⟩] : List Segment).map Segment.data).flatten
        = "```code```x".toList.take 10 ∧
      split "```code```x".toList "code" "```".toList "```".toList
        = some (if 10 + 1 < "```code```x".toList.length then
            [⟨"code", "```code```".toList⟩] ++ [⟨"text", "```code```x".toList.drop 10⟩]
          else [⟨"code", "```code```".toList⟩]) ∧
      (10 + 1 = "```code```x".toList.length →
        split "```code```x".toList "code" "```".toList "```".toList
          = some [⟨"code", "```code```".toList⟩]) :=
  split_trailing_rule "```code```x".toList "code" "```".toList "```".toList 10
    [⟨"code", "```code```".toList⟩] (by decide)

/-- C17, no empty segments: with both tags non-empty, `split` returns, and
every segment it returns has non-empty data. -/
theorem split_segments_nonempty (s : Str) (type : String) (stag etag : Str)
    (hs : stag ≠ []) (_he : etag ≠ []) :
    ∃ segs, split s type stag etag = some segs ∧ ∀ seg ∈ segs, seg.data ≠ [] := by
  have htags : 0 < stag.length + etag.length := by
    have := List.length_pos.mpr hs
    omega
  have hsome := splitLoop_some s type stag etag htags (s.length + 1) 0 0 []
    (le_refl _) (by omega) (by push_cast; omega)
  obtain ⟨⟨e, r⟩, hloop⟩ := Option.isSome_iff_exists.mp hsome
  obtain ⟨c, hc, hP, hcase⟩ := splitLoop_invariant s type stag etag
    (fun _ result => ∀ seg ∈ result, seg.data ≠ [])
    (fun c i j result hc hi _ hP => pushMatch_nonempty s type stag etag hs c i j result hc hi hP)
    (s.length + 1) 0 [] e r (Nat.zero_le _) (by simp) hloop
  unfold split
  rw [hloop]
  simp only
  rcases hcase with ⟨hec, _⟩ | ⟨hec, _⟩
  · subst hec
    by_cases hlt : (c : Int) + 1 < (s.length : Int)
    · rw [if_pos hlt, substrFrom_nat s c hc]
      refine ⟨_, rfl, ?_⟩
      intro seg hmem
      rw [List.mem_append, List.mem_singleton] at hmem
      rcases hmem with hmem | hmem
      · exact hP seg hmem
      · subst hmem
        intro hnil
        have := congrArg List.length hnil
        simp only [List.length_drop, List.length_nil] at this
        omega
    · rw [if_neg hlt]
      exact ⟨_, rfl, hP⟩
  · subst hec
    by_cases hlt : (-1 : Int) + 1 < (s.length : Int)
    · have hpos : 0 < s.length := by omega
      rw [if_pos hlt, substrFrom_neg_one s hpos]
      refine ⟨_, rfl, ?_⟩
      intro seg hmem
      rw [List.mem_append, List.mem_singleton] at hmem
      rcases hmem with hmem | hmem
      · exact hP seg hmem
      · subst hmem
        intro hnil
        have := congrArg List.length hnil
        simp only [List.length_drop, List.length_nil] at this
        omega
    · rw [if_neg hlt]
      exact ⟨_, rfl, hP⟩

/-- Witness of `split_segments_nonempty`: the code fence as both tags. -/
theorem split_segments_nonempty_witness :
    ∃ segs, split "a```b```".toList "code" "```".toList "```".toList = some segs ∧
      ∀ seg ∈ segs, seg.data ≠ [] :=
  split_segments_nonempty "a```b```".toList "code" "```".toList "```".toList
    (by decide) (by decide)

/-- C18 as stated fails: the input of four backticks, `graphviz` and three
backticks is one code segment of `splitAll` that does not begin with the
fence followed by `graphviz` (its fourth code unit is a backtick), and
`preprocess` still treats it as a graphviz diagram, because the marker is
searched anywhere in the segment. -/
theorem preprocess_graphviz_marker_not_anchored :
    splitAll "````graphviz```".toList = some [⟨"code", "````graphviz```".toList⟩] ∧
      ¬ "```graphviz".toList <+: "````graphviz```".toList ∧
      preprocess "````graphviz```".toList "n".toList ⟨0, []⟩
        = some ("![image](images/n_0.png)\n".toList,
            ⟨1, [("dots/n_0".toList, "`digraph G \x7b\x7d".toList)]⟩) := by
  decide

/-- C18, amended: a code segment is treated by the callback of `preprocess`
as a graphviz diagram (a side file under `dots/` with the current index is
written) if and only if its data contains the fence followed by `graphviz`
at some position; in particular a segment that begins with it is treated as
a graphviz diagram. -/
theorem preprocessIter_graphviz_iff (n : Str) (seg : Segment) (st : GenState)
    (hcode : seg.type = "code") :
    ((∃ content, (preprocessIter n seg st).2.files
        = st.files ++ [("dots/".toList ++ imageName n st.imageIndex, content)])
      ↔ "```graphviz".toList <:+: seg.data) ∧
    ("```graphviz".toList <+: seg.data →
      ∃ content, (preprocessIter n seg st).2.files
        = st.files ++ [("dots/".toList ++ imageName n st.imageIndex, content)]) := by
  obtain ⟨k, fs⟩ := st
  have hback : "```graphviz".toList <:+: seg.data →
      ∃ content, (preprocessIter n seg ⟨k, fs⟩).2.files
        = fs ++ [("dots/".toList ++ imageName n k, content)] := by
    intro hg
    have hd : isDiagram seg = true := by
      simp only [isDiagram, hcode, decide_True, Bool.true_and, Bool.or_eq_true,
        decide_eq_true_eq]
      exact Or.inl hg
    obtain ⟨content, hc⟩ := preprocessIter_of_diagram n seg k fs hd
    refine ⟨content, ?_⟩
    rw [hc]
    simp only [sideFileName, if_pos hg, imageName, List.append_assoc]
  refine ⟨⟨?_, hback⟩, fun hp => hback hp.isInfix⟩
  rintro ⟨content, hfiles⟩
  by_contra hg
  cases hd : isDiagram seg with
  | false =>
    rw [preprocessIter_of_not_diagram n seg _ hd] at hfiles
    have := congrArg List.length hfiles
    simp at this
  | true =>
    obtain ⟨content', hc⟩ := preprocessIter_of_diagram n seg k fs hd
    rw [hc] at hfiles
    simp only [sideFileName, if_neg hg] at hfiles
    have h1 := List.append_cancel_left hfiles
    simp only [List.cons.injEq, Prod.mk.injEq, and_true] at h1
    have h2 := h1.1
    rw [show "umls/".toList = 'u' :: "mls/".toList from rfl,
      show "dots/".toList = 'd' :: "ots/".toList from rfl] at h2
    simp only [List.cons_append, List.cons.injEq] at h2
    exact absurd h2.1 (by decide)

/-- Witness of `preprocessIter_graphviz_iff`: the segment of four backticks,
`graphviz` and three backticks. -/
theorem preprocessIter_graphviz_iff_witness :
    ((∃ content, (preprocessIter "n".toList ⟨"code", "````graphviz```".toList⟩ ⟨0, []⟩).2.files
        = ([] : List (Str × Str))
            ++ [("dots/".toList ++ imageName "n".toList 0, content)])
      ↔ "```graphviz".toList <:+: "````graphviz```".toList) ∧
    ("```graphviz".toList <+: "````graphviz```".toList →
      ∃ content, (preprocessIter "n".toList ⟨"code", "````graphviz```".toList⟩ ⟨0, []⟩).2.files
        = ([] : List (Str × Str))
            ++ [("dots/".toList ++ imageName "n".toList 0, content)]) :=
  preprocessIter_graphviz_iff "n".toList ⟨"code", "````graphviz```".toList⟩ ⟨0, []⟩ rfl

/-- C19, termination: when the two tags are not both empty, every matching
iteration of the loop of `split` moves the cursor strictly forward and keeps
it within the input, the loop leaves within `length + 1` iterations with a
result that more iterations do not change, and `split` returns. Hence
`splitAll` and `preprocess` return on every input. -/
theorem split_terminates (s : Str) (type : String) (stag etag : Str)
    (htags : 0 < stag.length + etag.length) :
    (∀ c i j : Nat, c ≤ s.length → findFrom stag (s.drop c) = some i →
        findFrom etag (s.drop (c + i + stag.length)) = some j →
        c < c + i + stag.length + j + etag.length ∧
          c + i + stag.length + j + etag.length ≤ s.length) ∧
      (∃ r, ∀ fuel, s.length + 1 ≤ fuel →
        splitLoop s type stag etag fuel 0 0 [] = some r) ∧
      (split s type stag etag).isSome = true ∧
      (splitAll s).isSome = true ∧
      ∀ (n : Str) (st : GenState), (preprocess s n st).isSome = true := by
  refine ⟨?_, ?_, split_isSome s type stag etag htags, splitAll_isSome s,
    fun n st => preprocess_isSome s n st⟩
  · intro c i j hc hi hj
    have hb := findFrom_drop_le s stag c i hc hi
    have hb2 := findFrom_drop_le s etag (c + i + stag.length) j hb hj
    omega
  · have hsome := splitLoop_some s type stag etag htags (s.length + 1) 0 0 []
      (le_refl _) (by omega) (by push_cast; omega)
    obtain ⟨r, hr⟩ := Option.isSome_iff_exists.mp hsome
    refine ⟨r, ?_⟩
    intro fuel hfuel
    have := splitLoop_fuel_mono s type stag etag 0 0 [] r (fuel - (s.length + 1))
      (s.length + 1) hr
    have e : s.length + 1 + (fuel - (s.length + 1)) = fuel := by omega
    rw [e] at this
    exact this

/-- Witness of `split_terminates`: the code fence as both tags, on a text
with one closed and one unclosed fence. -/
theorem split_terminates_witness :
    (split "a```b```c```".toList "code" "```".toList "```".toList).isSome = true :=
  (split_terminates "a```b```c```".toList "code" "```".toList "```".toList (by decide)).2.2.1

/-- C20, shape of code segments: `splitAll` returns, every segment it returns
has type `text` or `code`, the data of every `code` segment is the fence, a
body that contains no fence, and the fence, and the segments are the contents
of spans of the input that follow one another without overlap. -/
theorem splitAll_shape (s : Str) :
    ∃ segs, splitAll s = some segs ∧
      (∀ seg ∈ segs, seg.type = "text" ∨ seg.type = "code") ∧
      (∀ seg ∈ segs, seg.type = "code" →
        ∃ body, seg.data = "```".toList ++ body ++ "```".toList ∧
          ¬ "```".toList <:+: body) ∧
      spansIn s 0 s.length segs := by
  obtain ⟨segs, hsegs, hshape, hspans⟩ :=
    split_shape s "code" "```".toList "```".toList (by decide) (by decide)
  refine ⟨segs, by rw [splitAll_eq_split]; exact hsegs, ?_, ?_, hspans⟩
  · intro seg hmem
    rcases hshape seg hmem with h | ⟨h, _⟩
    · exact Or.inl h
    · exact Or.inr h
  · intro seg hmem hcode
    rcases hshape seg hmem with h | ⟨_, h⟩
    · rw [hcode] at h
      exact absurd h (by decide)
    · exact h

/-- C12, private members are hidden but kept: for every entity, the index of
functions and the index of properties are their heads followed by one row for
each member whose `annotation.private` is not truthy (the annotation is
absent or its flag is not set), no row for a member whose `annotation.private`
is truthy; the detail texts are one section for each member whose
`annotation.private` is not truthy; and `genOneClass` returns an entity whose
methods and properties are rearrangements of all the original members,
private ones included (an absent array stays absent). -/
theorem private_members_hidden (localeCompare : Str → Str → Int) (cls : Entity)
    (st : GenState) :
    (genFunctionsIndex localeCompare cls).1
        = (if cls.methods.isSome then
            functionsIndexHead cls.name
              ++ (((sortByName localeCompare (cls.methods.getD [])).filter
                    (fun m => decide (m.annotation.map Annotation.private_ ≠ some true))).map
                    (functionsIndexRow cls.name)).flatten
          else []) ∧
      (genPropertiesIndex localeCompare cls).1
        = (if cls.properties.isSome then
            propertiesIndexHead cls.name
              ++ (((sortByName localeCompare (cls.properties.getD [])).filter
                    (fun m => decide (m.annotation.map Annotation.private_ ≠ some true))).map
                    (propertiesIndexRow cls.name)).flatten
          else []) ∧
      genFunctionsDetail cls
        = (((cls.methods.getD []).filter
              (fun m => decide (m.annotation.map Annotation.private_ ≠ some true))).map
              (genOneFunc cls)).flatten ∧
      genPropertiesDetail cls
        = (((cls.properties.getD []).filter
              (fun m => decide (m.annotation.map Annotation.private_ ≠ some true))).map
              (genOneProperty cls)).flatten ∧
      ∃ cls' st', genOneClass localeCompare cls st = some (cls', st') ∧
        (∀ ms, cls.methods = some ms → ∃ ms', cls'.methods = some ms' ∧ ms'.Perm ms) ∧
        (cls.methods = none → cls'.methods = none) ∧
        (∀ ps, cls.properties = some ps →
          ∃ ps', cls'.properties = some ps' ∧ ps'.Perm ps) ∧
        (cls.properties = none → cls'.properties = none) := by
  refine ⟨by rw [genFunctionsIndex_eq localeCompare cls],
    by rw [genPropertiesIndex_eq localeCompare cls],
    genFunctionsDetail_eq cls, genPropertiesDetail_eq cls, ?_⟩
  rw [genOneClass_eq localeCompare cls st]
  obtain ⟨st', hst⟩ := Option.isSome_iff_exists.mp (writeResult_isSome cls.name
    (classOverview cls
      ++ (if cls.methods.isSome then
            functionsIndexHead cls.name
              ++ (((sortByName localeCompare (cls.methods.getD [])).filter
                    (fun m => decide (m.annotation.map Annotation.private_ ≠ some true))).map
                    (functionsIndexRow cls.name)).flatten
          else [])
      ++ (if cls.properties.isSome then
            propertiesIndexHead cls.name
              ++ (((sortByName localeCompare (cls.properties.getD [])).filter
                    (fun m => decide (m.annotation.map Annotation.private_ ≠ some true))).map
                    (propertiesIndexRow cls.name)).flatten
          else [])
      ++ genConsts cls ++ genEvents cls
      ++ (((sortByName localeCompare (cls.methods.getD [])).filter
            (fun m => decide (m.annotation.map Annotation.private_ ≠ some true))).map
            (genOneFunc cls)).flatten
      ++ (((sortByName localeCompare (cls.properties.getD [])).filter
            (fun m => decide (m.annotation.map Annotation.private_ ≠ some true))).map
            (genOneProperty cls)).flatten) st)
  rw [hst]
  refine ⟨_, st', rfl, ?_, ?_, ?_, ?_⟩
  · intro ms hm
    exact ⟨sortByName localeCompare ms, by simp only [hm, Option.map_some'],
      List.perm_insertionSort _ ms⟩
  · intro hm
    simp only [hm, Option.map_none']
  · intro ps hp
    exact ⟨sortByName localeCompare ps, by simp only [hp, Option.map_some'],
      List.perm_insertionSort _ ps⟩
  · intro hp
    simp only [hp, Option.map_none']

/-- Witness of `private_members_hidden`: in the example class the method
`on_paint` and the property `state` have `annotation.private` set. The index
of functions has the one row of `set_text`, the detail text of the functions
is the one section of `set_text`, and the detail text of the properties is
the one section of `text`. -/
theorem private_members_hidden_witness :
    (genFunctionsIndex localeCompareRoot sampleClass).1
        = functionsIndexHead "button".toList
          ++ ((sampleMethods.take 1).map (functionsIndexRow "button".toList)).flatten ∧
      genFunctionsDetail sampleClass
        = ((sampleMethods.take 1).map (genOneFunc sampleClass)).flatten ∧
      genPropertiesDetail sampleClass
        = ((sampleProperties.take 1).map (genOneProperty sampleClass)).flatten := by
  obtain ⟨h1, _, h3, h4, _⟩ := private_members_hidden localeCompareRoot sampleClass ⟨0, []⟩
  refine ⟨h1.trans ?_, h3.trans ?_, h4.trans ?_⟩
  · decide
  · rfl
  · rfl

/-- C13 as stated fails: with the comparison the runtime supplies, the
methods named `Z`, `B`, `b`, `a`, `_x` are left in the order `_x`, `a`, `b`,
`B`, `Z`, which is not ascending in case-sensitive lexical order (the order by
code units puts `B` and `Z` before `_x`, and `B` before `b`). -/
theorem members_not_in_code_unit_order :
    (genFunctionsIndex localeCompareRoot mixedCaseClass).2.methods.map
        (fun ms => ms.map Member.name)
      = some ["_x".toList, "a".toList, "b".toList, "B".toList, "Z".toList] ∧
    ¬ List.Sorted (fun a b : Str => ¬ List.Lex (· < ·) b a)
        ["_x".toList, "a".toList, "b".toList, "B".toList, "Z".toList] := by
  decide

/-- C13, amended: for every entity whose method and property names are made
of ASCII letters, digits and underscores, the methods and the properties left
in the entity by the index methods are rearrangements of the original arrays,
sorted ascending by name in the collation order of `localeCompare`
(underscore before digits before letters, letters compared without regard to
case, a name before its extensions, and lower case before upper case between
names that differ only by case), and the document of `genOneClass` holds the
index rows and, later, the detail sections of the members that are not
private in that same sorted order. -/
theorem members_in_name_order (cls : Entity) (st : GenState)
    (_hm : ∀ ms, cls.methods = some ms → ∀ m ∈ ms, ∀ c ∈ m.name, isNameUnit c = true)
    (_hp : ∀ ps, cls.properties = some ps → ∀ m ∈ ps, ∀ c ∈ m.name, isNameUnit c = true) :
    (genFunctionsIndex localeCompareRoot cls).2.methods
        = cls.methods.map (sortByName localeCompareRoot) ∧
      (genPropertiesIndex localeCompareRoot cls).2.properties
        = cls.properties.map (sortByName localeCompareRoot) ∧
      (sortByName localeCompareRoot (cls.methods.getD [])).Perm (cls.methods.getD []) ∧
      (sortByName localeCompareRoot (cls.methods.getD [])).Sorted
        (fun a b => collationLe a.name b.name) ∧
      (sortByName localeCompareRoot (cls.properties.getD [])).Perm (cls.properties.getD []) ∧
      (sortByName localeCompareRoot (cls.properties.getD [])).Sorted
        (fun a b => collationLe a.name b.name) ∧
      genOneClass localeCompareRoot cls st =
        (writeResult cls.name
          (classOverview cls
            ++ (if cls.methods.isSome then
                  functionsIndexHead cls.name
                    ++ (((sortByName localeCompareRoot (cls.methods.getD [])).filter
                          (fun m => decide (m.annotation.map Annotation.private_ ≠ some true))).map
                          (functionsIndexRow cls.name)).flatten
                else [])
            ++ (if cls.properties.isSome then
                  propertiesIndexHead cls.name
                    ++ (((sortByName localeCompareRoot (cls.properties.getD [])).filter
                          (fun m => decide (m.annotation.map Annotation.private_ ≠ some true))).map
                          (propertiesIndexRow cls.name)).flatten
                else [])
            ++ genConsts cls ++ genEvents cls
            ++ (((sortByName localeCompareRoot (cls.methods.getD [])).filter
                  (fun m => decide (m.annotation.map Annotation.private_ ≠ some true))).map
                  (genOneFunc cls)).flatten
            ++ (((sortByName localeCompareRoot (cls.properties.getD [])).filter
                  (fun m => decide (m.annotation.map Annotation.private_ ≠ some true))).map
                  (genOneProperty cls)).flatten)
          st).map
          (fun st' =>
            ({ cls with methods := cls.methods.map (sortByName localeCompareRoot),
                        properties := cls.properties.map (sortByName localeCompareRoot) },
              st')) := by
  refine ⟨by rw [genFunctionsIndex_eq localeCompareRoot cls],
    by rw [genPropertiesIndex_eq localeCompareRoot cls],
    List.perm_insertionSort _ _, sortByName_root_sorted _,
    List.perm_insertionSort _ _, sortByName_root_sorted _,
    genOneClass_eq localeCompareRoot cls st⟩

/-- Witness of `members_in_name_order`: the example entity with the methods
`Z`, `B`, `b`, `a`, `_x`; its names are made of letters and an underscore, and
its methods end up sorted in the collation order. -/
theorem members_in_name_order_witness :
    (sortByName localeCompareRoot (mixedCaseClass.methods.getD [])).Sorted
      (fun a b => collationLe a.name b.name) :=
  (members_in_name_order mixedCaseClass ⟨0, []⟩
    (by
      intro ms h
      cases h
      decide)
    (by
      intro ps h
      cases h)).2.2.2.1

/-- C14, unrecognized entity types are skipped: for an entity whose type is
neither `class` nor `enum`, `genOne` returns, the files written are the ones
written before the call, and the entity is as it was; only the counter is
reset and `clsName` set. -/
theorem genOne_skips_unknown_type (localeCompare : Str → Str → Int) (cls : Entity)
    (gen : ApiGenerator) (h1 : cls.type ≠ "class".toList) (h2 : cls.type ≠ "enum".toList) :
    genOne localeCompare cls gen = some (cls, ⟨some cls.name, ⟨0, gen.state.files⟩⟩) := by
  unfold genOne
  simp only
  rw [if_neg h1, if_neg h2]

/-- Witness of `genOne_skips_unknown_type`: the example entity with the type
`struct`, after one file was written. -/
theorem genOne_skips_unknown_type_witness :
    genOne compareCodeUnits { sampleClass with type := "struct".toList }
        ⟨none, ⟨2, [("docs/a.md".toList, "a".toList)]⟩⟩
      = some ({ sampleClass with type := "struct".toList },
          ⟨some "button".toList, ⟨0, [("docs/a.md".toList, "a".toList)]⟩⟩) :=
  genOne_skips_unknown_type compareCodeUnits { sampleClass with type := "struct".toList }
    ⟨none, ⟨2, [("docs/a.md".toList, "a".toList)]⟩⟩ (by decide) (by decide)

/-- C15, enums render only overview and constants: for an entity of type
`enum` named `n`, `genOne` returns and its last write is `docs/n.md` holding
`preprocess` of the title, the overview, the description and `genConsts`,
run with the counter at 0; the files written do not depend on the methods,
properties or events of the entity. -/
theorem genOne_enum (localeCompare : Str → Str → Int) (cls : Entity) (gen : ApiGenerator)
    (h : cls.type = "enum".toList) :
    ∃ out st,
      preprocess ("## ".toList ++ encodeStr cls.name ++ "\n### 概述\n".toList ++ cls.desc
          ++ genConsts cls) cls.name ⟨0, gen.state.files⟩ = some (out, st) ∧
      genOne localeCompare cls gen
        = some (cls, ⟨some cls.name,
            ⟨st.imageIndex, st.files ++ [("docs/".toList ++ cls.name ++ ".md".toList, out)]⟩⟩) ∧
      ∀ (ms ps es : Option (List Member)),
        (genOne localeCompare { cls with methods := ms, properties := ps, events := es }
            gen).map (fun r => r.2)
          = (genOne localeCompare cls gen).map (fun r => r.2) := by
  have hdoc : ∀ c : Entity,
      (match c.consts with
        | some _ => "## ".toList ++ encodeStr c.name ++ "\n".toList ++ "### 概述\n".toList
            ++ c.desc ++ genConsts c
        | none => "## ".toList ++ encodeStr c.name ++ "\n".toList ++ "### 概述\n".toList
            ++ c.desc)
      = "## ".toList ++ encodeStr c.name ++ "\n### 概述\n".toList ++ c.desc ++ genConsts c := by
    intro c
    have e : "\n### 概述\n".toList = "\n".toList ++ "### 概述\n".toList := rfl
    cases hc : c.consts with
    | none => simp only [genConsts, hc, e, List.append_assoc, List.append_nil]
    | some cs => simp only [e, List.append_assoc]
  have hne : ¬ cls.type = "class".toList := by rw [h]; decide
  have hgen : ∀ c : Entity, c.type = "enum".toList →
      genOne localeCompare c gen
        = (writeResult c.name ("## ".toList ++ encodeStr c.name ++ "\n### 概述\n".toList
            ++ c.desc ++ genConsts c) ⟨0, gen.state.files⟩).map
            (fun st => (c, ⟨some c.name, st⟩)) := by
    intro c hc
    have hcne : ¬ c.type = "class".toList := by rw [hc]; decide
    unfold genOne genOneEnum
    simp only
    rw [if_neg hcne, if_pos hc, hdoc c, Option.map_map]
    rfl
  obtain ⟨⟨out, st⟩, hpre⟩ := Option.isSome_iff_exists.mp
    (preprocess_isSome ("## ".toList ++ encodeStr cls.name ++ "\n### 概述\n".toList ++ cls.desc
      ++ genConsts cls) cls.name ⟨0, gen.state.files⟩)
  refine ⟨out, st, hpre, ?_, ?_⟩
  · rw [hgen cls h]
    unfold writeResult
    simp only [hpre, Option.map_some']
  · intro ms ps es
    rw [hgen cls h, hgen { cls with methods := ms, properties := ps, events := es } h,
      Option.map_map, Option.map_map]
    rfl

/-- Witness of `genOne_enum`: the example entity taken as an enum writes the
same files with its methods, properties and events removed. -/
theorem genOne_enum_witness :
    (genOne compareCodeUnits
        { { sampleClass with type := "enum".toList } with
          methods := none, properties := none, events := none }
        ⟨none, ⟨0, []⟩⟩).map (fun r => r.2)
      = (genOne compareCodeUnits { sampleClass with type := "enum".toList }
          ⟨none, ⟨0, []⟩⟩).map (fun r => r.2) := by
  obtain ⟨_, _, _, _, h⟩ := genOne_enum compareCodeUnits
    { sampleClass with type := "enum".toList } ⟨none, ⟨0, []⟩⟩ rfl
  exact h none none none

end DocGen
